import Mathlib

/-!
Verification of the minECS entity-component-system runtime.

This file gives a shallow embedding of the core data structures and
operations of the minECS repository (SparseSet.ts, Query.ts, World.ts,
Serialize.ts, Deserialize.ts) and proves or refutes the specification
claims about them.

Conventions of the embedding:

* JavaScript 32-bit typed-array cells become `Nat` values together with
  explicit bitwise operations (`|||`, `&&&`, `^^^`); the u32 complement
  `~b` becomes `4294967295 ^^^ b`.
* A JavaScript array used as a map with holes becomes a function into
  `Option`; a JavaScript dense array becomes a `List`.
* Exceptions become an `Option Err` component of the result.  Because the
  source mutates the world in place before throwing, every operation
  returns the (possibly mutated) world even in the error case.
* The process-wide component/query registration (frozen before any world
  exists) becomes a static `Config` value; worlds are built over it.
-/

namespace MinECS

/-! ## Sparse set (SparseSet.ts)

The source keeps a dense array of ids and a sparse array where
`sparse[id]` is the position of `id` in `dense`; `has` checks
`dense[sparse[id]] === id`.  A hole in the sparse array is modelled by
`none`.  `remove` is swap-pop and, as in the source, leaves the stale
`sparse` entry of the removed id in place. -/

structure SparseSet where
  dense : List Nat
  sparse : Nat → Option Nat

/-- The empty sparse set (fresh `SparseSet()` in the source). -/
def SparseSet.empty : SparseSet := ⟨[], fun _ => none⟩

/-- Membership test `dense[sparse[val]] === val`; an unset sparse slot or
an out-of-range dense index yields `undefined`, which fails the check. -/
def SparseSet.has (s : SparseSet) (v : Nat) : Bool :=
  ((s.sparse v).bind fun i => s.dense[i]?) == some v

/-- Insertion: append to `dense` and point `sparse[val]` at the new slot.
The source returns `true` iff the value was newly added; the model
exposes that through `SparseSet.has` before the call. -/
def SparseSet.add (s : SparseSet) (v : Nat) : SparseSet :=
  if s.has v then s
  else
    { dense := s.dense ++ [v]
      sparse := fun x => if x = v then some s.dense.length else s.sparse x }

/-- Swap-pop removal: pop the last dense element and, when it is not the
removed value, write it into the vacated slot and repoint its sparse
entry.  The sparse entry of the removed value is left stale, as in the
source. -/
def SparseSet.remove (s : SparseSet) (v : Nat) : SparseSet :=
  match s.sparse v with
  | none => s
  | some i =>
    if s.dense[i]? == some v then
      match s.dense.getLast? with
      | none => s
      | some swapped =>
        if swapped = v then
          { dense := s.dense.dropLast, sparse := s.sparse }
        else
          { dense := s.dense.dropLast.set i swapped
            sparse := fun x => if x = swapped then some i else s.sparse x }
    else s

/-- Well-formedness of a sparse set: the dense list has no duplicates and
the sparse index is consistent with it.  Every set reachable by `add` and
`remove` from the empty set satisfies this. -/
structure SparseSet.WF (s : SparseSet) : Prop where
  nodup : s.dense.Nodup
  coherent : ∀ i (h : i < s.dense.length), s.sparse s.dense[i] = some i

theorem SparseSet.empty_WF : SparseSet.empty.WF :=
  ⟨List.nodup_nil, fun i h => absurd h (by simp [SparseSet.empty])⟩

theorem SparseSet.has_empty (v : Nat) : SparseSet.empty.has v = false := rfl

theorem SparseSet.has_of_dense_nil {s : SparseSet} (h : s.dense = []) (v : Nat) :
    s.has v = false := by
  unfold SparseSet.has
  cases hsp : s.sparse v with
  | none => rfl
  | some i => simp [h]

theorem SparseSet.has_iff_mem {s : SparseSet} (hs : s.WF) (v : Nat) :
    s.has v = true ↔ v ∈ s.dense := by
  unfold SparseSet.has
  constructor
  · intro h
    cases hsp : s.sparse v with
    | none => rw [hsp] at h; cases h
    | some i =>
      rw [hsp] at h
      have hv : s.dense[i]? = some v := by simpa using h
      obtain ⟨hlt, hget⟩ := List.getElem?_eq_some.1 hv
      exact hget ▸ List.getElem_mem hlt
  · intro h
    obtain ⟨i, hi, hget⟩ := List.getElem_of_mem h
    have hsp : s.sparse v = some i := hget ▸ hs.coherent i hi
    rw [hsp]
    simp [List.getElem?_eq_getElem hi, hget]

theorem SparseSet.has_of_not_mem {s : SparseSet} (hs : s.WF) {v : Nat}
    (h : v ∉ s.dense) : s.has v = false := by
  cases hh : s.has v
  · rfl
  · exact absurd ((SparseSet.has_iff_mem hs v).1 hh) h

/-- Adding preserves well-formedness. -/
theorem SparseSet.WF.add {s : SparseSet} (hs : s.WF) (v : Nat) : (s.add v).WF := by
  unfold SparseSet.add
  by_cases h : s.has v = true
  · simpa [h] using hs
  · have hv : v ∉ s.dense := fun hm => h ((SparseSet.has_iff_mem hs v).2 hm)
    simp only [h, if_false, Bool.false_eq_true]
    refine ⟨?_, ?_⟩
    · simpa [List.nodup_append] using ⟨hs.nodup, fun hm => hv hm⟩
    · intro i hi
      simp only [List.length_append, List.length_cons, List.length_nil] at hi
      by_cases hlt : i < s.dense.length
      · have hne : (s.dense ++ [v])[i] = s.dense[i] := by
          simp [List.getElem_append_left hlt]
        rw [hne]
        have : s.dense[i] ≠ v := fun he => hv (he ▸ List.getElem_mem hlt)
        simp [this, hs.coherent i hlt]
      · have hieq : i = s.dense.length := by omega
        subst hieq
        have : (s.dense ++ [v])[s.dense.length] = v := by simp
        rw [this]
        simp

/-- Effect of `add` on membership tests: the new value now tests true and
every other value is unchanged.  This holds without well-formedness. -/
theorem SparseSet.has_add (s : SparseSet) (v x : Nat) :
    (s.add v).has x = (x == v || s.has x) := by
  by_cases h : s.has v = true
  · by_cases hxv : x = v
    · subst hxv; simp [SparseSet.add, h]
    · simp [SparseSet.add, h, hxv]
  · have hadd : s.add v =
        ⟨s.dense ++ [v], fun y => if y = v then some s.dense.length else s.sparse y⟩ := by
      simp [SparseSet.add, h]
    rw [hadd]
    by_cases hxv : x = v
    · subst hxv
      have hlook : (s.dense ++ [x])[s.dense.length]? = some x := by simp
      simp [SparseSet.has, hlook]
    · have hx2 : (x == v) = false := by simp [hxv]
      simp only [SparseSet.has, hx2, Bool.false_or, if_neg hxv]
      cases hsp : s.sparse x with
      | none => rfl
      | some j =>
        simp only [Option.some_bind]
        by_cases hj : j < s.dense.length
        · rw [List.getElem?_append_left hj]
        · by_cases hje : j = s.dense.length
          · subst hje
            have h1 : (s.dense ++ [v])[s.dense.length]? = some v := by simp
            have h2 : s.dense[s.dense.length]? = none := by simp
            rw [h1, h2]
            simp [Ne.symm hxv]
          · have h1 : (s.dense ++ [v])[j]? = none := by
              rw [List.getElem?_eq_none]
              simp only [List.length_append, List.length_cons, List.length_nil]
              omega
            have h2 : s.dense[j]? = none := by rw [List.getElem?_eq_none]; omega
            rw [h1, h2]

theorem SparseSet.remove_of_not_has {s : SparseSet} {v : Nat} (h : s.has v = false) :
    s.remove v = s := by
  unfold SparseSet.remove
  unfold SparseSet.has at h
  cases hsp : s.sparse v with
  | none => rfl
  | some i =>
    rw [hsp] at h
    simp only [Option.some_bind] at h
    simp [h]

/-- Structural description of `remove` when the value is present: either
the value is the last dense element and the set just drops it, or the
last element is swapped into its slot. -/
theorem SparseSet.remove_eq_of_has {s : SparseSet} (hs : s.WF) {v : Nat} (h : s.has v = true) :
    ∃ i, s.sparse v = some i ∧ i < s.dense.length ∧ s.dense[i]? = some v ∧
      ((s.dense.getLast? = some v ∧ i = s.dense.length - 1 ∧
          s.remove v = ⟨s.dense.dropLast, s.sparse⟩) ∨
       (∃ w, s.dense.getLast? = some w ∧ w ≠ v ∧ i < s.dense.length - 1 ∧
          s.remove v = ⟨s.dense.dropLast.set i w,
            fun x => if x = w then some i else s.sparse x⟩)) := by
  unfold SparseSet.has at h
  cases hsp : s.sparse v with
  | none => rw [hsp] at h; cases h
  | some i =>
    rw [hsp] at h
    simp only [Option.some_bind] at h
    have hv : s.dense[i]? = some v := by simpa using h
    obtain ⟨hlt, hget⟩ := List.getElem?_eq_some.1 hv
    have hne : s.dense ≠ [] := by
      intro hnil
      rw [hnil] at hlt
      simp at hlt
    have hlast : s.dense.getLast? = some (s.dense.getLast hne) :=
      List.getLast?_eq_getLast s.dense hne
    have hlm1 : s.dense.length - 1 < s.dense.length := by
      have := List.length_pos.2 hne
      omega
    have hlastget : s.dense.getLast hne = s.dense[s.dense.length - 1] :=
      List.getLast_eq_getElem s.dense hne
    refine ⟨i, rfl, hlt, hv, ?_⟩
    by_cases hw : s.dense.getLast hne = v
    · left
      have hget1 : s.dense[s.dense.length - 1] = v := hlastget ▸ hw
      have hieq : i = s.dense.length - 1 :=
        (List.Nodup.getElem_inj_iff hs.nodup).1 (by rw [hget, hget1])
      refine ⟨hw ▸ hlast, hieq, ?_⟩
      unfold SparseSet.remove
      rw [hsp]
      simp only [hv, beq_self_eq_true, if_true, hlast, hw]
    · right
      refine ⟨s.dense.getLast hne, hlast, hw, ?_, ?_⟩
      · have hne2 : i ≠ s.dense.length - 1 := by
          intro hieq
          apply hw
          rw [hlastget]
          exact hieq ▸ hget
        omega
      · unfold SparseSet.remove
        rw [hsp]
        simp only [hv, beq_self_eq_true, if_true, hlast]
        simp [hw]

/-- Under well-formedness, removing the last dense element just drops it. -/
theorem SparseSet.remove_getLast_eq {s : SparseSet} (hs : s.WF) (h : s.dense ≠ []) :
    s.remove (s.dense.getLast h) = ⟨s.dense.dropLast, s.sparse⟩ := by
  have hmem : s.dense.getLast h ∈ s.dense := List.getLast_mem h
  have hh : s.has (s.dense.getLast h) = true := (SparseSet.has_iff_mem hs _).2 hmem
  obtain ⟨i, hsp, hlt, hv, hcase⟩ := SparseSet.remove_eq_of_has hs hh
  cases hcase with
  | inl hc => exact hc.2.2
  | inr hc =>
    obtain ⟨w, hlast, hwv, _, _⟩ := hc
    rw [List.getLast?_eq_getLast s.dense h] at hlast
    exact absurd (Option.some_inj.1 hlast).symm hwv

/-- Removal preserves well-formedness. -/
theorem SparseSet.WF.remove {s : SparseSet} (hs : s.WF) (v : Nat) : (s.remove v).WF := by
  by_cases h : s.has v = true
  · obtain ⟨i, hsp, hlt, hv, hcase⟩ := SparseSet.remove_eq_of_has hs h
    obtain ⟨_, hget⟩ := List.getElem?_eq_some.1 hv
    cases hcase with
    | inl hc =>
      rw [hc.2.2]
      refine ⟨List.Nodup.sublist (List.dropLast_sublist s.dense) hs.nodup, ?_⟩
      intro j hj
      have hj2 : j < s.dense.length - 1 := by
        simpa [List.length_dropLast] using hj
      have hjl : j < s.dense.length := by omega
      have hel : s.dense.dropLast[j] = s.dense[j] := by
        rw [List.getElem_dropLast]
      rw [hel]
      exact hs.coherent j hjl
    | inr hc =>
      obtain ⟨w, hlast, hwv, hilt, heq⟩ := hc
      rw [heq]
      have hne : s.dense ≠ [] := by
        intro hnil
        rw [hnil] at hlt
        simp at hlt
      have hwlast : s.dense.getLast hne = w := by
        rw [List.getLast?_eq_getLast s.dense hne] at hlast
        exact Option.some_inj.1 hlast
      have hlm1 : s.dense.length - 1 < s.dense.length := by
        have := List.length_pos.2 hne
        omega
      have hwget : s.dense[s.dense.length - 1] = w :=
        (List.getLast_eq_getElem s.dense hne) ▸ hwlast
      have hwnotdrop : w ∉ s.dense.dropLast := by
        intro hmem
        obtain ⟨j, hj, hgetj⟩ := List.getElem_of_mem hmem
        have hj2 : j < s.dense.length - 1 := by
          simpa [List.length_dropLast] using hj
        have hjl : j < s.dense.length := by omega
        have hel : s.dense.dropLast[j] = s.dense[j] := by
          rw [List.getElem_dropLast]
        have heq2 : s.dense[j] = s.dense[s.dense.length - 1] := by
          rw [← hel, hgetj, hwget]
        have hj3 := (List.Nodup.getElem_inj_iff hs.nodup).1 heq2
        omega
      refine ⟨List.Nodup.set (List.Nodup.sublist (List.dropLast_sublist s.dense) hs.nodup)
        hwnotdrop, ?_⟩
      intro j hj
      have hj2 : j < s.dense.length - 1 := by
        simpa [List.length_dropLast] using hj
      by_cases hji : j = i
      · subst hji
        have hel : (s.dense.dropLast.set j w)[j] = w :=
          List.getElem_set_self (by simpa [List.length_dropLast] using hj2)
        rw [hel]
        simp
      · have hjl : j < s.dense.length := by omega
        have hjd : j < s.dense.dropLast.length := by
          simpa [List.length_dropLast] using hj2
        have hjs : j < (s.dense.dropLast.set i w).length := by
          simpa [List.length_dropLast] using hj2
        have hel : (s.dense.dropLast.set i w)[j] = s.dense.dropLast[j] :=
          List.getElem_set_ne (fun he => hji he.symm) _
        have hel2 : s.dense.dropLast[j] = s.dense[j] := by
          rw [List.getElem_dropLast]
        rw [hel, hel2]
        have hnw : s.dense[j] ≠ w := by
          intro he
          have heq2 : s.dense[j] = s.dense[s.dense.length - 1] := by
            rw [he, hwget]
          have := (List.Nodup.getElem_inj_iff hs.nodup).1 heq2
          omega
        simp only [hnw, if_false]
        exact hs.coherent j hjl
  · rw [SparseSet.remove_of_not_has (by simpa using h)]
    exact hs

/-- Effect of `remove` on membership tests of a well-formed set: the
removed value now tests false and every other value is unchanged. -/
theorem SparseSet.has_remove {s : SparseSet} (hs : s.WF) (v x : Nat) :
    (s.remove v).has x = (s.has x && !(x == v)) := by
  by_cases h : s.has v = true
  · obtain ⟨i, hsp, hlt, hv, hcase⟩ := SparseSet.remove_eq_of_has hs h
    obtain ⟨_, hget⟩ := List.getElem?_eq_some.1 hv
    have hne : s.dense ≠ [] := by
      intro hnil
      rw [hnil] at hlt
      simp at hlt
    have hr : (s.remove v).WF := SparseSet.WF.remove hs v
    have hmem : ∀ y, y ∈ (s.remove v).dense ↔ y ∈ s.dense ∧ y ≠ v := by
      intro y
      cases hcase with
      | inl hc =>
        obtain ⟨hlastv, hieq, heq⟩ := hc
        rw [heq]
        constructor
        · intro hm
          obtain ⟨j, hj, hgetj⟩ := List.getElem_of_mem hm
          have hj2 : j < s.dense.length - 1 := by
            simpa [List.length_dropLast] using hj
          have hjl : j < s.dense.length := by omega
          have hel : s.dense.dropLast[j] = s.dense[j] := by
            rw [List.getElem_dropLast]
          refine ⟨hgetj ▸ hel ▸ List.getElem_mem hjl, ?_⟩
          intro hyv
          have heq2 : s.dense[j] = s.dense[i] := by
            rw [← hel, hgetj, hyv, hget]
          have hji := (List.Nodup.getElem_inj_iff hs.nodup).1 heq2
          omega
        · rintro ⟨hm, hyv⟩
          obtain ⟨j, hj, hgetj⟩ := List.getElem_of_mem hm
          have hji : j ≠ i := by
            intro he
            have h1 : s.dense[j]? = some y := by
              rw [List.getElem?_eq_getElem hj, hgetj]
            have h2 : s.dense[j]? = some v := by rw [he]; exact hv
            exact hyv (Option.some_inj.1 (h1.symm.trans h2))
          have hj2 : j < s.dense.length - 1 := by omega
          have hjd : j < s.dense.dropLast.length := by
            simpa [List.length_dropLast] using hj2
          have hel : s.dense.dropLast[j] = s.dense[j] := by
            rw [List.getElem_dropLast]
          exact hgetj ▸ hel ▸ List.getElem_mem hjd
      | inr hc =>
        obtain ⟨w, hlast, hwv, hilt, heq⟩ := hc
        have hwlast : s.dense.getLast hne = w := by
          rw [List.getLast?_eq_getLast s.dense hne] at hlast
          exact Option.some_inj.1 hlast
        have hlm1 : s.dense.length - 1 < s.dense.length := by
          have := List.length_pos.2 hne
          omega
        have hwget : s.dense[s.dense.length - 1] = w :=
          (List.getLast_eq_getElem s.dense hne) ▸ hwlast
        rw [heq]
        constructor
        · intro hm
          obtain ⟨j, hj, hgetj⟩ := List.getElem_of_mem hm
          have hj2 : j < s.dense.length - 1 := by
            simpa [List.length_dropLast] using hj
          by_cases hji : j = i
          · subst hji
            have hel : (s.dense.dropLast.set j w)[j] = w :=
              List.getElem_set_self (by simpa [List.length_dropLast] using hj2)
            rw [hel] at hgetj
            subst hgetj
            refine ⟨hwget ▸ List.getElem_mem (by
              have := List.length_pos.2 hne
              omega), hwv⟩
          · have hjl : j < s.dense.length := by omega
            have hjd : j < s.dense.dropLast.length := by
              simpa [List.length_dropLast] using hj2
            have hel : (s.dense.dropLast.set i w)[j] = s.dense.dropLast[j] :=
              List.getElem_set_ne (fun he => hji he.symm) _
            have hel2 : s.dense.dropLast[j] = s.dense[j] := by
              rw [List.getElem_dropLast]
            rw [hel, hel2] at hgetj
            refine ⟨hgetj ▸ List.getElem_mem hjl, ?_⟩
            intro hyv
            have heq2 : s.dense[j] = s.dense[i] := by
              rw [hgetj, hyv, hget]
            have := (List.Nodup.getElem_inj_iff hs.nodup).1 heq2
            omega
        · rintro ⟨hm, hyv⟩
          obtain ⟨j, hj, hgetj⟩ := List.getElem_of_mem hm
          by_cases hjlast : j = s.dense.length - 1
          · subst hjlast
            have hyw : y = w := by rw [← hgetj, hwget]
            have hiw : i < (s.dense.dropLast.set i w).length := by
              simpa [List.length_dropLast] using hilt
            have hel : (s.dense.dropLast.set i w)[i] = w :=
              List.getElem_set_self (by simpa [List.length_dropLast] using hilt)
            have hmw : w ∈ s.dense.dropLast.set i w :=
              List.mem_iff_getElem.2 ⟨i, hiw, hel⟩
            rw [hyw]
            exact hmw
          · have hj2 : j < s.dense.length - 1 := by omega
            have hji : j ≠ i := by
              intro he
              have h1 : s.dense[j]? = some y := by
                rw [List.getElem?_eq_getElem hj, hgetj]
              have h2 : s.dense[j]? = some v := by rw [he]; exact hv
              exact hyv (Option.some_inj.1 (h1.symm.trans h2))
            have hjd : j < s.dense.dropLast.length := by
              simpa [List.length_dropLast] using hj2
            have hj3 : j < (s.dense.dropLast.set i w).length := by
              simpa [List.length_dropLast] using hj2
            have hel : (s.dense.dropLast.set i w)[j] = s.dense.dropLast[j] :=
              List.getElem_set_ne (fun he => hji he.symm) _
            have hel2 : s.dense.dropLast[j] = s.dense[j] := by
              rw [List.getElem_dropLast]
            have hyel : (s.dense.dropLast.set i w)[j] = y := by
              rw [hel, hel2, hgetj]
            exact hyel ▸ List.getElem_mem hj3
    by_cases hx : (s.remove v).has x = true
    · have hx2 := ((SparseSet.has_iff_mem hr x).1 hx)
      obtain ⟨hmx, hxv⟩ := (hmem x).1 hx2
      rw [hx, (SparseSet.has_iff_mem hs x).2 hmx]
      simp [hxv]
    · have hx2 : (s.remove v).has x = false := by
        cases hxx : (s.remove v).has x
        · rfl
        · exact absurd hxx hx
      rw [hx2]
      by_cases hxv : x = v
      · subst hxv
        simp
      · have hmx : x ∉ s.dense := by
          intro hm
          exact hx (((SparseSet.has_iff_mem hr x)).2 ((hmem x).2 ⟨hm, hxv⟩))
        rw [SparseSet.has_of_not_mem hs hmx]
        rfl
  · have h2 : s.has v = false := by
      cases hh : s.has v
      · rfl
      · exact absurd hh h
    rw [SparseSet.remove_of_not_has h2]
    by_cases hxv : x = v
    · subst hxv
      simp [h2]
    · simp [hxv]

/-! ## Static registration data (Component.ts, System.ts)

Component schemas and systems are registered at module scope and frozen
before the first world is created (`freezeComponentOrder`,
`defineComponent` throwing once a world exists).  The embedding therefore
fixes them in a `Config` value: each component carries its mask
generation, its bitflag and its validator; each query the indices of its
required components; each system the index of its query and an optional
`run` hook. -/

structure Comp where
  gen : Nat
  bitflag : Nat
  validate : List (String × Int) → Bool

structure QuerySpec where
  comps : List Nat

/-- One query state inside a world: the primary sparse set of members plus
the `entered` and `toRemove` auxiliary sets (Query.ts `createQuery`). -/
structure Query where
  primary : SparseSet
  entered : SparseSet
  toRemove : SparseSet

/-- Lifecycle notifications fired by the world operations (`init` on a
fresh query match, `cleanup` on a lost match).  The model records which
hooks fire and in which order; the hook bodies are external code. -/
inductive Event where
  | init (qi e : Nat)
  | cleanup (qi e : Nat)
deriving DecidableEq

/-- The error kinds thrown by the world operations. -/
inductive Err where
  | capacityExceeded
  | entityMissing
  | validation
deriving DecidableEq

structure World where
  entityCursor : Nat
  size : Nat
  frame : Nat
  removed : List Nat
  entitySparseSet : SparseSet
  entityMasks : Nat → Nat → Nat
  stores : Nat → Nat → String → Int
  queries : List Query
  dirtyQueries : List Nat

/-- A registered system: the index of its query and its optional `run`
hook (`SystemImpl.runAll` does nothing when `run` is absent). -/
structure SystemImpl where
  qi : Nat
  run : Option (World → Nat → World)

structure Config where
  comps : List Comp
  queries : List QuerySpec
  genCount : Nat
  systems : List SystemImpl
  drawSystems : List SystemImpl

/-- Component indices required by query `qi`. -/
def Config.queryComps (cfg : Config) (qi : Nat) : List Nat :=
  ((cfg.queries[qi]?).map QuerySpec.comps).getD []

/-- Bitflags of the query components that live in generation `g`
(the `reduceBitflags` accumulation in Query.ts `createQuery`). -/
def Config.queryCompBitflags (cfg : Config) (qi g : Nat) : List Nat :=
  (cfg.queryComps qi).filterMap fun ci =>
    match cfg.comps[ci]? with
    | some c => if c.gen = g then some c.bitflag else none
    | none => none

/-- The per-generation query mask `q.masks[g]`: bitwise OR of the
bitflags of the required components of that generation. -/
def Config.queryMask (cfg : Config) (qi g : Nat) : Nat :=
  (cfg.queryCompBitflags qi g).foldl (· ||| ·) 0

/-- The deduplicated generation list of a query (Query.ts `generations`). -/
def Config.queryGenerations (cfg : Config) (qi : Nat) : List Nat :=
  ((cfg.queryComps qi).filterMap fun ci => (cfg.comps[ci]?).map Comp.gen).dedup

/-- Query indices whose component list mentions component `ci`; in the
source each world component carries this list (`c.queries`). -/
def referencingQueries (cfg : Config) (ci : Nat) : List Nat :=
  (List.range cfg.queries.length).filter fun qi => ci ∈ cfg.queryComps qi

/-! ## Query operations (Query.ts) -/

/-- `queryCheckEntity`: the entity matches iff for every participating
generation the query mask bits are all present in the entity mask (a zero
mask entry is skipped by the `qMask &&` guard in the source). -/
def queryCheckEntity (cfg : Config) (w : World) (qi e : Nat) : Bool :=
  (cfg.queryGenerations qi).all fun g =>
    cfg.queryMask qi g == 0 ||
      (w.entityMasks g e &&& cfg.queryMask qi g) == cfg.queryMask qi g

/-- `queryAddEntity`: drop any pending removal, record the entity in
`entered` and in the primary set; the Bool is the source's return value,
true iff the entity was newly added to the primary set. -/
def queryAddEntity (q : Query) (e : Nat) : Query × Bool :=
  (⟨q.primary.add e, q.entered.add e, q.toRemove.remove e⟩, !q.primary.has e)

/-- Marking a query dirty (`world.dirtyQueries.add q`, a JS Set). -/
def World.markDirty (w : World) (qi : Nat) : World :=
  if qi ∈ w.dirtyQueries then w else { w with dirtyQueries := w.dirtyQueries ++ [qi] }

/-- `queryRemoveEntity`: when the entity is a primary member and not
already queued, queue it in `toRemove` and mark the query dirty; the
primary set is untouched.  Returns true iff the entity was newly queued. -/
def queryRemoveEntity (w : World) (qi e : Nat) : World × Bool :=
  match w.queries[qi]? with
  | none => (w, false)
  | some q =>
    if !q.primary.has e || q.toRemove.has e then (w, false)
    else
      let w1 := { w with queries := w.queries.set qi { q with toRemove := q.toRemove.add e } }
      (w1.markDirty qi, true)

/-- The source's `queryCommitRemovals` loop: walk `toRemove.dense` from
the last index down to 0, removing each id from `toRemove` and from the
primary set.  The loop counter is the fuel argument. -/
def queryDrainLoop : Query → Nat → Query
  | q, 0 => q
  | q, i + 1 =>
    let e := (q.toRemove.dense[i]?).getD 0
    queryDrainLoop ⟨q.primary.remove e, q.entered, q.toRemove.remove e⟩ i

def queryCommitRemovals (q : Query) : Query :=
  queryDrainLoop q q.toRemove.dense.length

/-- One `dirtyQueries.forEach(queryCommitRemovals)` iteration on the
query list. -/
def commitQueryList (qs : List Query) (qi : Nat) : List Query :=
  match qs[qi]? with
  | some q => qs.set qi (queryCommitRemovals q)
  | none => qs

/-- `commitRemovals`: drain every dirty query, then clear the dirty set;
a world without dirty queries is returned untouched. -/
def commitRemovals (w : World) : World :=
  if w.dirtyQueries.isEmpty then w
  else
    { w with
      queries := w.dirtyQueries.foldl commitQueryList w.queries
      dirtyQueries := [] }

/-- Reading a query instance (`q(world)` in defineQuery): commit all
deferred removals, then return the dense member list. -/
def getEntities (w : World) (qi : Nat) : World × List Nat :=
  let w1 := commitRemovals w
  (w1, ((w1.queries[qi]?).map fun q => q.primary.dense).getD [])

/-! ## Entity and component lifecycle (World.ts) -/

/-- Models `Math.round(size * removedReuseThreshold)` with
`removedReuseThreshold = 0.01`: round-half-up of `size / 100`. -/
def removedReuseThresholdOf (size : Nat) : Nat := (size + 50) / 100

/-- `addEntity`: recycle the most recently removed id when the removed
queue is longer than the reuse threshold, else take `entityCursor++`;
throw when the chosen id exceeds `size` (after the pop or increment has
already happened), else add the id to the entity sparse set. -/
def addEntity (w : World) : World × Nat × Option Err :=
  if w.removed.length > removedReuseThresholdOf w.size then
    let eid := (w.removed.getLast?).getD 0
    let w1 := { w with removed := w.removed.dropLast }
    if eid > w.size then (w1, eid, some .capacityExceeded)
    else ({ w1 with entitySparseSet := w1.entitySparseSet.add eid }, eid, none)
  else
    let eid := w.entityCursor
    let w1 := { w with entityCursor := w.entityCursor + 1 }
    if eid > w.size then (w1, eid, some .capacityExceeded)
    else ({ w1 with entitySparseSet := w1.entitySparseSet.add eid }, eid, none)

def entityExists (w : World) (e : Nat) : Bool := w.entitySparseSet.has e

/-- `hasComponent`: an unregistered component always reports false;
otherwise test the component's bitflag in the entity's generation mask. -/
def hasComponent (cfg : Config) (w : World) (ci e : Nat) : Bool :=
  match cfg.comps[ci]? with
  | none => false
  | some c => (w.entityMasks c.gen e &&& c.bitflag) == c.bitflag

/-- `removeEntity`: no-op when the entity is absent; otherwise queue the
entity for deferred removal in every query (collecting `cleanup` events
in reverse encounter order), push the id onto the removed queue, drop it
from the entity sparse set and zero its row in every generation mask. -/
def removeStep (e : Nat) (acc : World × List Event) (qi : Nat) : World × List Event :=
  let r2 := queryRemoveEntity acc.1 qi e
  (r2.1, if r2.2 then Event.cleanup qi e :: acc.2 else acc.2)

def removeEntity (cfg : Config) (w : World) (e : Nat) : World × List Event :=
  if !w.entitySparseSet.has e then (w, [])
  else
    let r := (List.range w.queries.length).foldl (removeStep e) (w, [])
    let w2 : World :=
      { r.1 with
        removed := r.1.removed ++ [e]
        entitySparseSet := r.1.entitySparseSet.remove e
        entityMasks := fun g x =>
          (if g < cfg.genCount ∧ x = e then 0 else r.1.entityMasks g x) }
    (w2, r.2)

/-- The query re-evaluation step shared by `addComponent` and
`removeComponent` (World.ts lines 97-122 and 179-203): drop the entity
from the query's `toRemove`, re-check the masks, then either add it
(firing `init` when newly added) or drop it from `entered` and queue a
deferred removal (collecting `cleanup` in reverse encounter order). -/
def syncStep (cfg : Config) (e : Nat) (acc : World × List Event × List Event) (qi : Nat) :
    World × List Event × List Event :=
  let w := acc.1
  match w.queries[qi]? with
  | none => acc
  | some q =>
    let q1 : Query := { q with toRemove := q.toRemove.remove e }
    let w1 := { w with queries := w.queries.set qi q1 }
    if queryCheckEntity cfg w1 qi e then
      let r := queryAddEntity q1 e
      let w2 := { w1 with queries := w1.queries.set qi r.1 }
      (w2, if r.2 then acc.2.1 ++ [Event.init qi e] else acc.2.1, acc.2.2)
    else
      let q2 : Query := { q1 with entered := q1.entered.remove e }
      let w2 := { w1 with queries := w1.queries.set qi q2 }
      let r := queryRemoveEntity w2 qi e
      (r.1, acc.2.1, if r.2 then Event.cleanup qi e :: acc.2.2 else acc.2.2)

def syncQueries (cfg : Config) (w : World) (ci e : Nat) : World × List Event :=
  let r := (referencingQueries cfg ci).foldl (syncStep cfg e) (w, [], [])
  (r.1, r.2.1 ++ r.2.2)

/-- Writing validated override values into the store columns, skipping
the reserved `type` key (World.ts lines 88-92). -/
def storeWriteOverrides (st : Nat → Nat → String → Int) (ci e : Nat)
    (overrides : List (String × Int)) : Nat → Nat → String → Int :=
  overrides.foldl (fun st kv =>
    if kv.1 = "type" then st
    else fun cj x k => if cj = ci ∧ x = e ∧ k = kv.1 then kv.2 else st cj x k) st

/-- `addComponent`.  Steps in source order: entity existence check, early
return when the component is already present, OR the bitflag into the
entity mask, zero the store row unless `reset === false`, validate the
overrides (throwing `ValidationError` with the world already mutated),
write the overrides, then re-evaluate the referencing queries.  Lazy
registration is unreachable here because the embedding freezes the
component list in `cfg`; an out-of-range component index is a no-op. -/
def addComponent (cfg : Config) (w : World) (ci e : Nat)
    (overrides : List (String × Int)) (reset : Option Bool) :
    World × List Event × Option Err :=
  if !w.entitySparseSet.has e then (w, [], some .entityMissing)
  else
    match cfg.comps[ci]? with
    | none => (w, [], none)
    | some c =>
      if hasComponent cfg w ci e then (w, [], none)
      else
        let w1 : World := { w with entityMasks := fun g x =>
          (if g = c.gen ∧ x = e then w.entityMasks c.gen e ||| c.bitflag
           else w.entityMasks g x) }
        let w2 : World :=
          if reset = some false then w1
          else { w1 with stores := fun cj x k =>
            (if cj = ci ∧ x = e then 0 else w1.stores cj x k) }
        if !c.validate overrides then (w2, [], some .validation)
        else
          let w3 : World := { w2 with stores := storeWriteOverrides w2.stores ci e overrides }
          let r := syncQueries cfg w3 ci e
          (r.1, r.2, none)

/-- `removeComponent`: entity check, early return when absent, AND-NOT
the bitflag out of the entity mask (u32 complement), then re-evaluate the
referencing queries. -/
def removeComponent (cfg : Config) (w : World) (ci e : Nat) :
    World × List Event × Option Err :=
  if !w.entitySparseSet.has e then (w, [], some .entityMissing)
  else if !hasComponent cfg w ci e then (w, [], none)
  else
    match cfg.comps[ci]? with
    | none => (w, [], none)
    | some c =>
      let w1 : World := { w with entityMasks := fun g x =>
        (if g = c.gen ∧ x = e then w.entityMasks c.gen e &&& (4294967295 ^^^ c.bitflag)
         else w.entityMasks g x) }
      let r := syncQueries cfg w1 ci e
      (r.1, r.2, none)

/-! ## Steppers (World.ts `stepWorld`, `stepWorldDraw`; System.ts
`SystemImpl.runAll`) -/

/-- `SystemImpl.runAll`: when a `run` hook exists, fetch the entity list
through the query (which commits deferred removals) and invoke the hook
on each entity. -/
def runAllEntities (s : SystemImpl) (w : World) : World :=
  match s.run with
  | none => w
  | some f =>
    let r := getEntities w s.qi
    r.2.foldl f r.1

/-- One stepper iteration: read the system's query (committing deferred
removals) and call `runAll` when the member list is non-empty. -/
def stepSystem (w : World) (s : SystemImpl) : World :=
  let r := getEntities w s.qi
  if r.2.length ≠ 0 then runAllEntities s r.1 else r.1

/-- `stepWorld`: increment the frame counter, then run every auto-run
system in order. -/
def stepWorld (cfg : Config) (w : World) : World :=
  cfg.systems.foldl stepSystem { w with frame := w.frame + 1 }

/-- `stepWorldDraw`: run every draw system in order; the frame counter is
not touched. -/
def stepWorldDraw (cfg : Config) (w : World) : World :=
  cfg.drawSystems.foldl stepSystem w

/-! ## Built worlds and operation sequences -/

def initQuery : Query := ⟨SparseSet.empty, SparseSet.empty, SparseSet.empty⟩

/-- `createWorld` over the frozen registration data: empty entity set,
zeroed masks and stores, one empty query state per registered query (the
initial population walk visits no entities since the world is empty). -/
def initWorld (cfg : Config) (size : Nat) : World :=
  { entityCursor := 0
    size := size
    frame := 0
    removed := []
    entitySparseSet := SparseSet.empty
    entityMasks := fun _ _ => 0
    stores := fun _ _ _ => 0
    queries := cfg.queries.map fun _ => initQuery
    dirtyQueries := [] }

/-- The public mutating operations, as an inductive alphabet. -/
inductive Op where
  | newEntity
  | delEntity (e : Nat)
  | addComp (ci e : Nat) (overrides : List (String × Int)) (reset : Option Bool)
  | delComp (ci e : Nat)
  | commit

def applyOp (cfg : Config) (w : World) : Op → World
  | .newEntity => (addEntity w).1
  | .delEntity e => (removeEntity cfg w e).1
  | .addComp ci e ov rst => (addComponent cfg w ci e ov rst).1
  | .delComp ci e => (removeComponent cfg w ci e).1
  | .commit => commitRemovals w

/-- The world reached from a fresh world by a sequence of public
operations. -/
def runOps (cfg : Config) (size : Nat) (ops : List Op) : World :=
  ops.foldl (applyOp cfg) (initWorld cfg size)

/-! ## Bitmask lemmas -/

theorem foldl_or_testBit (l : List Nat) (a t : Nat) :
    (l.foldl (· ||| ·) a).testBit t = (a.testBit t || l.any fun x => x.testBit t) := by
  induction l generalizing a with
  | nil => simp
  | cons x xs ih =>
    simp only [List.foldl_cons, List.any_cons]
    rw [ih]
    simp [Nat.testBit_or, Bool.or_assoc]

theorem queryMask_testBit (cfg : Config) (qi g t : Nat) :
    (cfg.queryMask qi g).testBit t =
      (cfg.queryCompBitflags qi g).any fun b => b.testBit t := by
  unfold Config.queryMask
  rw [foldl_or_testBit]
  simp

/-- Setting disjoint bits does not disturb a masked comparison. -/
theorem land_or_of_disjoint {m b qm : Nat}
    (hdisj : ∀ t, qm.testBit t = true → b.testBit t = false) :
    (m ||| b) &&& qm = m &&& qm := by
  apply Nat.eq_of_testBit_eq
  intro t
  simp only [Nat.testBit_and, Nat.testBit_or]
  by_cases hq : qm.testBit t = true
  · rw [hdisj t hq]
    simp
  · have : qm.testBit t = false := by
      cases hqq : qm.testBit t
      · rfl
      · exact absurd hqq hq
    simp [this]

/-- Clearing disjoint bits (via the u32 complement) does not disturb a
masked comparison, provided the mask uses only the low 32 bits. -/
theorem land_clear_of_disjoint {m b qm : Nat}
    (hdisj : ∀ t, qm.testBit t = true → b.testBit t = false ∧ t < 32) :
    (m &&& (4294967295 ^^^ b)) &&& qm = m &&& qm := by
  apply Nat.eq_of_testBit_eq
  intro t
  simp only [Nat.testBit_and, Nat.testBit_xor]
  by_cases hq : qm.testBit t = true
  · obtain ⟨hb, ht⟩ := hdisj t hq
    have hmask : (4294967295 : Nat).testBit t = true := by
      have h1 : (4294967295 : Nat) = 2 ^ 32 - 1 := by norm_num
      rw [h1, Nat.testBit_two_pow_sub_one]
      simp [ht]
    rw [hmask, hb, hq]
    simp
  · have : qm.testBit t = false := by
      cases hqq : qm.testBit t
      · rfl
      · exact absurd hqq hq
    simp [this]

/-- ORing a flag in makes the flag test true. -/
theorem or_land_self (m b : Nat) : (m ||| b) &&& b = b := by
  apply Nat.eq_of_testBit_eq
  intro t
  simp only [Nat.testBit_and, Nat.testBit_or]
  cases b.testBit t <;> simp

/-! ## Drain-loop specification -/

theorem queryDrainLoop_spec :
    ∀ (n : Nat) (q : Query), q.primary.WF → q.toRemove.WF → q.toRemove.dense.length = n →
      (queryDrainLoop q n).primary.WF ∧ (queryDrainLoop q n).toRemove.WF ∧
      (queryDrainLoop q n).entered = q.entered ∧
      (queryDrainLoop q n).toRemove.dense = [] ∧
      (∀ x, (queryDrainLoop q n).primary.has x = (q.primary.has x && !(q.toRemove.has x))) := by
  intro n
  induction n with
  | zero =>
    intro q hp ht hlen
    have hnil : q.toRemove.dense = [] := List.length_eq_zero.1 hlen
    refine ⟨hp, ht, rfl, hnil, ?_⟩
    intro x
    rw [SparseSet.has_of_dense_nil hnil x]
    simp [queryDrainLoop]
  | succ n ih =>
    intro q hp ht hlen
    have hne : q.toRemove.dense ≠ [] := by
      intro hnil
      rw [hnil] at hlen
      simp at hlen
    have hn1 : q.toRemove.dense.length - 1 = n := by omega
    have hget : q.toRemove.dense[n]? = some (q.toRemove.dense.getLast hne) := by
      rw [← hn1, List.getElem?_eq_getElem (by omega)]
      rw [List.getLast_eq_getElem]
    have hstep : queryDrainLoop q (n + 1) =
        queryDrainLoop ⟨q.primary.remove (q.toRemove.dense.getLast hne), q.entered,
          q.toRemove.remove (q.toRemove.dense.getLast hne)⟩ n := by
      conv_lhs => rw [queryDrainLoop]
      rw [hget]
      simp only [Option.getD_some]
    have hrem : q.toRemove.remove (q.toRemove.dense.getLast hne) =
        ⟨q.toRemove.dense.dropLast, q.toRemove.sparse⟩ :=
      SparseSet.remove_getLast_eq ht hne
    have hlen2 : (q.toRemove.remove (q.toRemove.dense.getLast hne)).dense.length = n := by
      rw [hrem]
      simp only [List.length_dropLast]
      omega
    obtain ⟨ihp, iht, ihe, ihd, ihh⟩ :=
      ih ⟨q.primary.remove (q.toRemove.dense.getLast hne), q.entered,
        q.toRemove.remove (q.toRemove.dense.getLast hne)⟩
        (SparseSet.WF.remove hp _) (SparseSet.WF.remove ht _) hlen2
    rw [hstep]
    refine ⟨ihp, iht, ihe, ihd, ?_⟩
    intro x
    rw [ihh x]
    simp only []
    rw [SparseSet.has_remove hp, SparseSet.has_remove ht]
    by_cases hxe : x = q.toRemove.dense.getLast hne
    · have hhe : q.toRemove.has (q.toRemove.dense.getLast hne) = true :=
        (SparseSet.has_iff_mem ht _).2 (List.getLast_mem hne)
      rw [hxe, hhe]
      simp
    · have hb : (x == q.toRemove.dense.getLast hne) = false := by simp [hxe]
      rw [hb]
      simp

theorem queryCommitRemovals_spec (q : Query) (hp : q.primary.WF) (ht : q.toRemove.WF) :
    (queryCommitRemovals q).primary.WF ∧ (queryCommitRemovals q).toRemove.WF ∧
    (queryCommitRemovals q).entered = q.entered ∧
    (queryCommitRemovals q).toRemove.dense = [] ∧
    (∀ x, (queryCommitRemovals q).primary.has x = (q.primary.has x && !(q.toRemove.has x))) :=
  queryDrainLoop_spec _ q hp ht rfl

theorem queryCommitRemovals_of_toRemove_nil {q : Query} (h : q.toRemove.dense = []) :
    queryCommitRemovals q = q := by
  unfold queryCommitRemovals
  rw [h]
  rfl

theorem commitFold_length (dl : List Nat) (ql : List Query) :
    (dl.foldl commitQueryList ql).length = ql.length := by
  induction dl generalizing ql with
  | nil => rfl
  | cons d ds ih =>
    simp only [List.foldl_cons]
    rw [ih]
    unfold commitQueryList
    cases h : ql[d]? <;> simp

theorem commitFold_getElem (dl : List Nat) (ql : List Query)
    (hwf : ∀ (qi : Nat) (q : Query), ql[qi]? = some q → q.primary.WF ∧ q.toRemove.WF) :
    ∀ qi, (dl.foldl commitQueryList ql)[qi]? =
      if qi ∈ dl then (ql[qi]?).map queryCommitRemovals else ql[qi]? := by
  induction dl generalizing ql with
  | nil =>
    intro qi
    simp
  | cons d ds ih =>
    intro qi
    simp only [List.foldl_cons]
    have hstep : ∀ x, (commitQueryList ql d)[x]? =
        if x = d then (ql[x]?).map queryCommitRemovals else ql[x]? := by
      intro x
      unfold commitQueryList
      cases h : ql[d]? with
      | none =>
        by_cases hxd : x = d
        · subst hxd
          simp [h]
        · simp [hxd]
      | some q =>
        by_cases hxd : x = d
        · subst hxd
          have hd : x < ql.length := (List.getElem?_eq_some.1 h).1
          simp [List.getElem?_set_self hd, h]
        · simp [List.getElem?_set_ne (fun he => hxd he.symm), hxd]
    have hwf2 : ∀ (qi : Nat) (q : Query), (commitQueryList ql d)[qi]? = some q →
        q.primary.WF ∧ q.toRemove.WF := by
      intro x q hq
      rw [hstep x] at hq
      by_cases hxd : x = d
      · rw [if_pos hxd] at hq
        cases h : ql[x]? with
        | none => rw [h] at hq; cases hq
        | some q0 =>
          rw [h] at hq
          simp only [Option.map_some'] at hq
          obtain ⟨hp0, ht0⟩ := hwf x q0 h
          obtain ⟨hq1, hq2, _, _, _⟩ := queryCommitRemovals_spec q0 hp0 ht0
          rw [← Option.some_inj.1 hq]
          exact ⟨hq1, hq2⟩
      · rw [if_neg hxd] at hq
        exact hwf x q hq
    rw [ih (commitQueryList ql d) hwf2 qi]
    by_cases hqd : qi ∈ ds
    · rw [if_pos hqd, if_pos (by simp [hqd])]
      rw [hstep qi]
      by_cases hxd : qi = d
      · rw [if_pos hxd]
        cases h : ql[qi]? with
        | none => simp
        | some q0 =>
          simp only [Option.map_some']
          obtain ⟨hp0, ht0⟩ := hwf qi q0 h
          obtain ⟨_, _, _, hnil, _⟩ := queryCommitRemovals_spec q0 hp0 ht0
          rw [queryCommitRemovals_of_toRemove_nil hnil]
      · rw [if_neg hxd]
    · rw [if_neg hqd, hstep qi]
      by_cases hxd : qi = d
      · rw [if_pos hxd, if_pos (by simp [hxd])]
      · rw [if_neg hxd, if_neg (by simp [hxd, hqd])]

/-! ## Commit at world level -/

def WFQueries (w : World) : Prop :=
  ∀ (qi : Nat) (q : Query), w.queries[qi]? = some q →
    q.primary.WF ∧ q.entered.WF ∧ q.toRemove.WF

theorem commitRemovals_fields (w : World) :
    (commitRemovals w).entityCursor = w.entityCursor ∧
    (commitRemovals w).size = w.size ∧
    (commitRemovals w).frame = w.frame ∧
    (commitRemovals w).removed = w.removed ∧
    (commitRemovals w).entitySparseSet = w.entitySparseSet ∧
    (commitRemovals w).entityMasks = w.entityMasks ∧
    (commitRemovals w).stores = w.stores ∧
    (commitRemovals w).dirtyQueries = [] ∧
    (commitRemovals w).queries.length = w.queries.length := by
  unfold commitRemovals
  by_cases h : w.dirtyQueries.isEmpty = true
  · have he : w.dirtyQueries = [] := by
      cases hd : w.dirtyQueries
      · rfl
      · rw [hd] at h; simp at h
    simp [h, he]
  · have h2 : w.dirtyQueries.isEmpty = false := by
      cases hh : w.dirtyQueries.isEmpty
      · rfl
      · exact absurd hh h
    simp [h2, commitFold_length]

theorem commitRemovals_queries (w : World) (hwf : WFQueries w) (qi : Nat) :
    (commitRemovals w).queries[qi]? =
      if qi ∈ w.dirtyQueries then (w.queries[qi]?).map queryCommitRemovals
      else w.queries[qi]? := by
  unfold commitRemovals
  by_cases h : w.dirtyQueries.isEmpty = true
  · have he : w.dirtyQueries = [] := by
      cases hd : w.dirtyQueries
      · rfl
      · rw [hd] at h; simp at h
    simp [h, he]
  · have h2 : w.dirtyQueries.isEmpty = false := by
      cases hh : w.dirtyQueries.isEmpty
      · rfl
      · exact absurd hh h
    simp only [h2, Bool.false_eq_true, if_false]
    exact commitFold_getElem w.dirtyQueries w.queries
      (fun qi q hq => ⟨(hwf qi q hq).1, (hwf qi q hq).2.2⟩) qi

/-! ## Config well-formedness

These facts hold by construction for every frozen registration: bitflags
are allocated by the doubling cursor (`incrementBitflag`), which yields a
distinct power of two below `2^31` per generation; a query is created
from a non-empty component list of registered components. -/

structure WFConfig (cfg : Config) : Prop where
  flag_pow : ∀ c ∈ cfg.comps, ∃ k, k < 31 ∧ c.bitflag = 2 ^ k
  gen_lt : ∀ c ∈ cfg.comps, c.gen < cfg.genCount
  distinct : ∀ (i j : Nat) (ci cj : Comp), cfg.comps[i]? = some ci →
      cfg.comps[j]? = some cj → i ≠ j → ci.gen ≠ cj.gen ∨ ci.bitflag ≠ cj.bitflag
  queries_ne : ∀ qs ∈ cfg.queries, qs.comps ≠ []
  queries_valid : ∀ qs ∈ cfg.queries, ∀ ci ∈ qs.comps, ci < cfg.comps.length

theorem mem_of_some_getElem {α : Type} {l : List α} {i : Nat} {a : α}
    (h : l[i]? = some a) : a ∈ l := by
  obtain ⟨hlt, hget⟩ := List.getElem?_eq_some.1 h
  exact hget ▸ List.getElem_mem hlt

theorem queryCompBitflags_mem {cfg : Config} {qi g b : Nat}
    (h : b ∈ cfg.queryCompBitflags qi g) :
    ∃ ci ∈ cfg.queryComps qi, ∃ c : Comp, cfg.comps[ci]? = some c ∧ c.gen = g ∧ c.bitflag = b := by
  unfold Config.queryCompBitflags at h
  obtain ⟨ci, hci, hf⟩ := List.mem_filterMap.1 h
  cases hc : cfg.comps[ci]? with
  | none =>
    rw [hc] at hf
    cases hf
  | some c =>
    simp only [hc] at hf
    by_cases hg : c.gen = g
    · rw [if_pos hg] at hf
      exact ⟨ci, hci, c, hc, hg, Option.some_inj.1 hf⟩
    · rw [if_neg hg] at hf
      cases hf

theorem queryMask_ne_zero_of_mem {cfg : Config} (hcfg : WFConfig cfg) {qi g : Nat}
    (hg : g ∈ cfg.queryGenerations qi) : cfg.queryMask qi g ≠ 0 := by
  unfold Config.queryGenerations at hg
  rw [List.mem_dedup] at hg
  obtain ⟨ci, hci, hc⟩ := List.mem_filterMap.1 hg
  cases hcc : cfg.comps[ci]? with
  | none => rw [hcc] at hc; cases hc
  | some c =>
    rw [hcc] at hc
    simp only [Option.map_some', Option.some_inj] at hc
    have hb : c.bitflag ∈ cfg.queryCompBitflags qi g := by
      unfold Config.queryCompBitflags
      refine List.mem_filterMap.2 ⟨ci, hci, ?_⟩
      simp only [hcc]
      rw [if_pos hc]
    obtain ⟨k, hk31, hkb⟩ := hcfg.flag_pow c (mem_of_some_getElem hcc)
    intro hzero
    have ht : (cfg.queryMask qi g).testBit k = true := by
      rw [queryMask_testBit]
      refine List.any_eq_true.2 ⟨c.bitflag, hb, ?_⟩
      rw [hkb]
      exact Nat.testBit_two_pow_self
    rw [hzero] at ht
    simp at ht

theorem queryGenerations_subset {cfg : Config} (hcfg : WFConfig cfg) {qi g : Nat}
    (hg : g ∈ cfg.queryGenerations qi) : g < cfg.genCount := by
  unfold Config.queryGenerations at hg
  rw [List.mem_dedup] at hg
  obtain ⟨ci, hci, hc⟩ := List.mem_filterMap.1 hg
  cases hcc : cfg.comps[ci]? with
  | none => rw [hcc] at hc; cases hc
  | some c =>
    rw [hcc] at hc
    simp only [Option.map_some', Option.some_inj] at hc
    exact hc ▸ hcfg.gen_lt c (mem_of_some_getElem hcc)

theorem queryGenerations_ne_nil {cfg : Config} (hcfg : WFConfig cfg) {qi : Nat}
    (hqi : qi < cfg.queries.length) : cfg.queryGenerations qi ≠ [] := by
  have hqs : cfg.queries[qi]? = some cfg.queries[qi] := List.getElem?_eq_getElem hqi
  have hmem : cfg.queries[qi] ∈ cfg.queries := List.getElem_mem hqi
  have hne := hcfg.queries_ne _ hmem
  cases hcomps : cfg.queries[qi].comps with
  | nil => exact absurd hcomps hne
  | cons ci rest =>
    have hci : ci ∈ cfg.queryComps qi := by
      unfold Config.queryComps
      rw [hqs]
      simp [hcomps]
    have hvalid := hcfg.queries_valid _ hmem ci (by rw [hcomps]; exact List.mem_cons_self ci rest)
    have hcc : ∃ c : Comp, cfg.comps[ci]? = some c :=
      ⟨cfg.comps[ci], List.getElem?_eq_getElem hvalid⟩
    obtain ⟨c, hc⟩ := hcc
    intro hnil
    have : c.gen ∈ cfg.queryGenerations qi := by
      unfold Config.queryGenerations
      rw [List.mem_dedup]
      refine List.mem_filterMap.2 ⟨ci, hci, ?_⟩
      rw [hc]
      rfl
    rw [hnil] at this
    exact absurd this (List.not_mem_nil _)

theorem list_all_congr {α : Type} {l : List α} {p q : α → Bool}
    (h : ∀ x ∈ l, p x = q x) : l.all p = l.all q := by
  induction l with
  | nil => rfl
  | cons a t ih =>
    simp only [List.all_cons]
    rw [h a (List.mem_cons_self a t), ih fun x hx => h x (List.mem_cons_of_mem a hx)]

theorem queryCheckEntity_masks_congr {cfg : Config} {qi e : Nat} {w w2 : World}
    (h : ∀ g, g ∈ cfg.queryGenerations qi →
      w2.entityMasks g e &&& cfg.queryMask qi g = w.entityMasks g e &&& cfg.queryMask qi g) :
    queryCheckEntity cfg w2 qi e = queryCheckEntity cfg w qi e := by
  unfold queryCheckEntity
  apply list_all_congr
  intro g hg
  rw [h g hg]

theorem queryCheckEntity_false_of_zero {cfg : Config} (hcfg : WFConfig cfg) {w : World}
    {qi e : Nat} (hqi : qi < cfg.queries.length)
    (hz : ∀ g, g < cfg.genCount → w.entityMasks g e = 0) :
    queryCheckEntity cfg w qi e = false := by
  have hne := queryGenerations_ne_nil hcfg hqi
  have hgmem : (cfg.queryGenerations qi).getLast hne ∈ cfg.queryGenerations qi :=
    List.getLast_mem hne
  have hm := queryMask_ne_zero_of_mem hcfg hgmem
  have hglt := queryGenerations_subset hcfg hgmem
  unfold queryCheckEntity
  apply List.all_eq_false.2
  refine ⟨(cfg.queryGenerations qi).getLast hne, hgmem, ?_⟩
  rw [hz _ hglt, Nat.zero_and]
  have h1 : (cfg.queryMask qi ((cfg.queryGenerations qi).getLast hne) == 0) = false := by
    simp [hm]
  have h2 : ((0 : Nat) == cfg.queryMask qi ((cfg.queryGenerations qi).getLast hne)) = false :=
    beq_eq_false_iff_ne.2 fun h => hm h.symm
  rw [h1, h2]
  simp

theorem queryMask_disjoint {cfg : Config} (hcfg : WFConfig cfg) {qi ci : Nat} {c : Comp}
    (hc : cfg.comps[ci]? = some c) (hnot : ci ∉ cfg.queryComps qi) :
    ∀ t, (cfg.queryMask qi c.gen).testBit t = true →
      c.bitflag.testBit t = false ∧ t < 32 := by
  intro t ht
  rw [queryMask_testBit] at ht
  obtain ⟨b, hb, hbt⟩ := List.any_eq_true.1 ht
  obtain ⟨cj, hcj, c2, hc2, hgen, hflag⟩ := queryCompBitflags_mem hb
  obtain ⟨k2, hk2, hb2⟩ := hcfg.flag_pow c2 (mem_of_some_getElem hc2)
  obtain ⟨k, hk, hbk⟩ := hcfg.flag_pow c (mem_of_some_getElem hc)
  subst hflag
  rw [hb2] at hbt
  have ht2 : t = k2 := by
    by_contra hne
    rw [Nat.testBit_two_pow_of_ne fun he => hne he.symm] at hbt
    cases hbt
  refine ⟨?_, by omega⟩
  rw [hbk, ht2]
  by_cases hkk : k = k2
  · have hcine : ci ≠ cj := fun he => hnot (he ▸ hcj)
    have hd := hcfg.distinct ci cj c c2 hc hc2 hcine
    exfalso
    cases hd with
    | inl hgne => exact hgne hgen.symm
    | inr hbne =>
      apply hbne
      rw [hbk, hb2, hkk]
  · exact Nat.testBit_two_pow_of_ne hkk

/-- Updating the mask row of entity `e` at generation `c.gen` with bits
disjoint from the query mask does not change the entity check. -/
theorem queryCheckEntity_update_nonref {cfg : Config} {w : World}
    {c : Comp} {e : Nat} (qi : Nat) (f : Nat → Nat)
    (hdis : ∀ m, f m &&& cfg.queryMask qi c.gen = m &&& cfg.queryMask qi c.gen) :
    ∀ x, queryCheckEntity cfg
        { w with entityMasks := fun g y =>
            (if g = c.gen ∧ y = e then f (w.entityMasks c.gen e) else w.entityMasks g y) } qi x =
      queryCheckEntity cfg w qi x := by
  intro x
  apply queryCheckEntity_masks_congr
  intro g hg
  show (if g = c.gen ∧ x = e then f (w.entityMasks c.gen e) else w.entityMasks g x) &&&
      cfg.queryMask qi g = w.entityMasks g x &&& cfg.queryMask qi g
  by_cases hge : g = c.gen ∧ x = e
  · rw [if_pos hge]
    obtain ⟨h1, h2⟩ := hge
    subst h1
    subst h2
    exact hdis _
  · rw [if_neg hge]

/-- Updating the mask row of entity `e` never changes the check of a
different entity. -/
theorem queryCheckEntity_update_ne {cfg : Config} {w : World}
    {c : Comp} {e : Nat} (qi : Nat) (f : Nat → Nat) {x : Nat} (hx : x ≠ e) :
    queryCheckEntity cfg
        { w with entityMasks := fun g y =>
            (if g = c.gen ∧ y = e then f (w.entityMasks c.gen e) else w.entityMasks g y) } qi x =
      queryCheckEntity cfg w qi x := by
  apply queryCheckEntity_masks_congr
  intro g hg
  show (if g = c.gen ∧ x = e then f (w.entityMasks c.gen e) else w.entityMasks g x) &&&
      cfg.queryMask qi g = w.entityMasks g x &&& cfg.queryMask qi g
  rw [if_neg fun hge => hx hge.2]

/-! ## The membership invariant -/

theorem markDirty_spec (w : World) (qi : Nat) :
    (w.markDirty qi).entityCursor = w.entityCursor ∧
    (w.markDirty qi).size = w.size ∧
    (w.markDirty qi).frame = w.frame ∧
    (w.markDirty qi).removed = w.removed ∧
    (w.markDirty qi).entitySparseSet = w.entitySparseSet ∧
    (w.markDirty qi).entityMasks = w.entityMasks ∧
    (w.markDirty qi).stores = w.stores ∧
    (w.markDirty qi).queries = w.queries ∧
    qi ∈ (w.markDirty qi).dirtyQueries ∧
    (∀ d, d ∈ w.dirtyQueries → d ∈ (w.markDirty qi).dirtyQueries) := by
  unfold World.markDirty
  by_cases h : qi ∈ w.dirtyQueries
  · simp [h]
  · simp [h]
    intro d hd
    exact Or.inl hd

theorem queryRemoveEntity_cases (w : World) (qi e : Nat) :
    (w.queries[qi]? = none ∧ queryRemoveEntity w qi e = (w, false)) ∨
    (∃ q, w.queries[qi]? = some q ∧
      (((q.primary.has e = false ∨ q.toRemove.has e = true) ∧
          queryRemoveEntity w qi e = (w, false)) ∨
       (q.primary.has e = true ∧ q.toRemove.has e = false ∧
        queryRemoveEntity w qi e =
          (World.markDirty
            { w with queries := w.queries.set qi { q with toRemove := q.toRemove.add e } } qi,
           true)))) := by
  unfold queryRemoveEntity
  cases hq : w.queries[qi]? with
  | none => exact Or.inl ⟨rfl, rfl⟩
  | some q =>
    refine Or.inr ⟨q, rfl, ?_⟩
    by_cases hp : q.primary.has e = true
    · by_cases ht : q.toRemove.has e = true
      · exact Or.inl ⟨Or.inr ht, by simp [hp, ht]⟩
      · have ht2 : q.toRemove.has e = false := by
          cases hh : q.toRemove.has e
          · rfl
          · exact absurd hh ht
        exact Or.inr ⟨hp, ht2, by simp [hp, ht2]⟩
    · have hp2 : q.primary.has e = false := by
        cases hh : q.primary.has e
        · rfl
        · exact absurd hh hp
      exact Or.inl ⟨Or.inl hp2, by simp [hp2]⟩

def removeLoopOut (e : Nat) (L : List Nat) (w : World) (evs : List Event) : World :=
  (L.foldl (removeStep e) (w, evs)).1

/-- Effect of the `removeEntity` query loop: only the `toRemove` sets and
the dirty list change, and an entity that was a primary member of a
processed query ends up queued in its `toRemove`. -/
theorem removeLoop_spec (e : Nat) (L : List Nat) :
    ∀ (w : World) (evs : List Event),
      (removeLoopOut e L w evs).entityCursor = w.entityCursor ∧
      (removeLoopOut e L w evs).size = w.size ∧
      (removeLoopOut e L w evs).frame = w.frame ∧
      (removeLoopOut e L w evs).removed = w.removed ∧
      (removeLoopOut e L w evs).entitySparseSet = w.entitySparseSet ∧
      (removeLoopOut e L w evs).entityMasks = w.entityMasks ∧
      (removeLoopOut e L w evs).stores = w.stores ∧
      (removeLoopOut e L w evs).queries.length = w.queries.length ∧
      (∀ d, d ∈ w.dirtyQueries → d ∈ (removeLoopOut e L w evs).dirtyQueries) ∧
      (∀ (qi : Nat) (q : Query), w.queries[qi]? = some q →
        ∃ q2, (removeLoopOut e L w evs).queries[qi]? = some q2 ∧
          q2.primary = q.primary ∧ q2.entered = q.entered ∧
          ((q2 = q) ∨
           (q2.toRemove = q.toRemove.add e ∧ q.primary.has e = true ∧
            q.toRemove.has e = false ∧
            qi ∈ (removeLoopOut e L w evs).dirtyQueries)) ∧
          (qi ∈ L → q.primary.has e = true → q2.toRemove.has e = true)) := by
  induction L with
  | nil =>
    intro w evs
    refine ⟨rfl, rfl, rfl, rfl, rfl, rfl, rfl, rfl, fun d hd => hd, ?_⟩
    intro qi q hq
    exact ⟨q, hq, rfl, rfl, Or.inl rfl, fun hmem => absurd hmem (List.not_mem_nil qi)⟩
  | cons d ds ih =>
    intro w evs
    have hfold : removeLoopOut e (d :: ds) w evs =
        removeLoopOut e ds (removeStep e (w, evs) d).1 (removeStep e (w, evs) d).2 := by
      unfold removeLoopOut
      simp [List.foldl_cons]
    rcases queryRemoveEntity_cases w d e with ⟨hnone, heq⟩ | ⟨q0, hsome, hcase⟩
    · have hstep : (removeStep e (w, evs) d).1 = w := by
        unfold removeStep
        rw [heq]
      obtain ⟨i1, i2, i3, i4, i5, i6, i7, i8, i9, i10⟩ :=
        ih (removeStep e (w, evs) d).1 (removeStep e (w, evs) d).2
      rw [hstep] at i1 i2 i3 i4 i5 i6 i7 i8 i9 i10
      rw [hfold, hstep]
      refine ⟨i1, i2, i3, i4, i5, i6, i7, i8, i9, ?_⟩
      intro qi q hq
      obtain ⟨q2, hq2, hp2, he2, hd2, hlast⟩ := i10 qi q hq
      refine ⟨q2, hq2, hp2, he2, hd2, ?_⟩
      intro hmem hprim
      cases List.mem_cons.1 hmem with
      | inl hqd =>
        subst hqd
        rw [hq] at hnone
        cases hnone
      | inr hqds => exact hlast hqds hprim
    · rcases hcase with ⟨hcond, heq⟩ | ⟨hprim, hto, heq⟩
      · have hstep : (removeStep e (w, evs) d).1 = w := by
          unfold removeStep
          rw [heq]
        obtain ⟨i1, i2, i3, i4, i5, i6, i7, i8, i9, i10⟩ :=
          ih (removeStep e (w, evs) d).1 (removeStep e (w, evs) d).2
        rw [hstep] at i1 i2 i3 i4 i5 i6 i7 i8 i9 i10
        rw [hfold, hstep]
        refine ⟨i1, i2, i3, i4, i5, i6, i7, i8, i9, ?_⟩
        intro qi q hq
        obtain ⟨q2, hq2, hp2, he2, hd2, hlast⟩ := i10 qi q hq
        refine ⟨q2, hq2, hp2, he2, hd2, ?_⟩
        intro hmem hprim
        cases List.mem_cons.1 hmem with
        | inl hqd =>
          subst hqd
          rw [hq] at hsome
          have hqq : q = q0 := Option.some_inj.1 hsome
          subst hqq
          cases hcond with
          | inl hpf => rw [hprim] at hpf; cases hpf
          | inr htt =>
            cases hd2 with
            | inl hqe =>
              rw [hqe]
              exact htt
            | inr hmod =>
              rw [hmod.1, SparseSet.has_add]
              simp
        | inr hqds => exact hlast hqds hprim
      · set w1 : World := World.markDirty
          { w with queries := w.queries.set d { q0 with toRemove := q0.toRemove.add e } } d
          with hw1def
        have hstep : (removeStep e (w, evs) d).1 = w1 := by
          unfold removeStep
          rw [heq]
        obtain ⟨m1, m2, m3, m4, m5, m6, m7, m8, m9, m10⟩ := markDirty_spec
          { w with queries := w.queries.set d { q0 with toRemove := q0.toRemove.add e } } d
        obtain ⟨i1, i2, i3, i4, i5, i6, i7, i8, i9, i10⟩ :=
          ih (removeStep e (w, evs) d).1 (removeStep e (w, evs) d).2
        rw [hstep] at i1 i2 i3 i4 i5 i6 i7 i8 i9 i10
        rw [hfold, hstep]
        have hdlen : d < w.queries.length := (List.getElem?_eq_some.1 hsome).1
        have hw1q : ∀ x, x ≠ d → w1.queries[x]? = w.queries[x]? := by
          intro x hx
          rw [← hw1def] at m8
          rw [m8]
          exact List.getElem?_set_ne fun hh => hx hh.symm
        have hw1qd : w1.queries[d]? = some { q0 with toRemove := q0.toRemove.add e } := by
          rw [← hw1def] at m8
          rw [m8]
          exact List.getElem?_set_self hdlen
        refine ⟨i1.trans m1, i2.trans m2, i3.trans m3, i4.trans m4, i5.trans m5,
          i6.trans m6, i7.trans m7, by rw [i8, ← hw1def] at *; rw [m8]; simp, ?_, ?_⟩
        · intro x hx
          refine i9 x ?_
          rw [← hw1def] at m10
          exact m10 x hx
        · intro qi q hq
          by_cases hqid : qi = d
          · subst hqid
            rw [hq] at hsome
            have hqq : q = q0 := Option.some_inj.1 hsome
            subst hqq
            obtain ⟨q2, hq2, hp2, he2, hd2, hlast⟩ :=
              i10 qi { q with toRemove := q.toRemove.add e } hw1qd
            have hq2to : q2.toRemove = q.toRemove.add e := by
              cases hd2 with
              | inl hqe => rw [hqe]
              | inr hmod =>
                exfalso
                have := hmod.2.2.1
                rw [SparseSet.has_add] at this
                simp at this
            refine ⟨q2, hq2, hp2, he2, Or.inr ⟨hq2to, hprim, hto, ?_⟩, ?_⟩
            · refine i9 qi ?_
              rw [← hw1def] at m9
              exact m9
            · intro _ _
              rw [hq2to, SparseSet.has_add]
              simp
          · obtain ⟨q2, hq2, hp2, he2, hd2, hlast⟩ := i10 qi q (by rw [hw1q qi hqid]; exact hq)
            refine ⟨q2, hq2, hp2, he2, hd2, ?_⟩
            intro hmem hprim2
            cases List.mem_cons.1 hmem with
            | inl hqd => exact absurd hqd hqid
            | inr hqds => exact hlast hqds hprim2


/-- Effect of one `syncStep` on the world: only query `d` and the dirty
list change, and afterwards query `d` agrees with the mask check at `e`
while its state at every other entity is unchanged. -/
theorem syncStep_spec (cfg : Config) (e : Nat) (w : World) (ie cr : List Event) (d : Nat)
    (q : Query) (hq : w.queries[d]? = some q)
    (hwfp : q.primary.WF) (hwfe : q.entered.WF) (hwft : q.toRemove.WF)
    (hsub : ∀ x, q.toRemove.has x = true → q.primary.has x = true) :
    (syncStep cfg e (w, ie, cr) d).1.entityCursor = w.entityCursor ∧
    (syncStep cfg e (w, ie, cr) d).1.size = w.size ∧
    (syncStep cfg e (w, ie, cr) d).1.frame = w.frame ∧
    (syncStep cfg e (w, ie, cr) d).1.removed = w.removed ∧
    (syncStep cfg e (w, ie, cr) d).1.entitySparseSet = w.entitySparseSet ∧
    (syncStep cfg e (w, ie, cr) d).1.entityMasks = w.entityMasks ∧
    (syncStep cfg e (w, ie, cr) d).1.stores = w.stores ∧
    (syncStep cfg e (w, ie, cr) d).1.queries.length = w.queries.length ∧
    (∀ x, x ≠ d → (syncStep cfg e (w, ie, cr) d).1.queries[x]? = w.queries[x]?) ∧
    (∀ dd, dd ∈ w.dirtyQueries → dd ∈ (syncStep cfg e (w, ie, cr) d).1.dirtyQueries) ∧
    (∃ q2, (syncStep cfg e (w, ie, cr) d).1.queries[d]? = some q2 ∧
      q2.primary.WF ∧ q2.entered.WF ∧ q2.toRemove.WF ∧
      ((q2.primary.has e && !q2.toRemove.has e) = queryCheckEntity cfg w d e) ∧
      (∀ x, x ≠ e → q2.primary.has x = q.primary.has x) ∧
      (∀ x, x ≠ e → q2.toRemove.has x = q.toRemove.has x) ∧
      (∀ x, q2.toRemove.has x = true → q2.primary.has x = true) ∧
      (∀ x, q2.toRemove.has x = true →
        (q.toRemove.has x = true ∨ d ∈ (syncStep cfg e (w, ie, cr) d).1.dirtyQueries))) := by
  have hdlen : d < w.queries.length := (List.getElem?_eq_some.1 hq).1
  have hwft2 : (q.toRemove.remove e).WF := SparseSet.WF.remove hwft e
  by_cases hchk : queryCheckEntity cfg w d e = true
  · have heqT : syncStep cfg e (w, ie, cr) d =
        ({ w with queries := w.queries.set d ⟨q.primary.add e, q.entered.add e, (q.toRemove.remove e).remove e⟩ },
         (if !q.primary.has e then ie ++ [Event.init d e] else ie), cr) := by
      unfold syncStep
      simp only [hq]
      have hchk2 : queryCheckEntity cfg
          { w with queries := w.queries.set d { q with toRemove := q.toRemove.remove e } }
          d e = true := hchk
      simp only [hchk2, if_true, List.set_set]
      rfl
    rw [heqT]
    refine ⟨rfl, rfl, rfl, rfl, rfl, rfl, rfl, by simp, ?_, fun dd hdd => hdd, ?_⟩
    · intro x hx
      exact List.getElem?_set_ne fun hh => hx hh.symm
    · refine ⟨⟨q.primary.add e, q.entered.add e, (q.toRemove.remove e).remove e⟩,
        List.getElem?_set_self (by simpa using hdlen), SparseSet.WF.add hwfp e,
        SparseSet.WF.add hwfe e, SparseSet.WF.remove hwft2 e, ?_, ?_, ?_, ?_, ?_⟩
      · show ((q.primary.add e).has e && !((q.toRemove.remove e).remove e).has e) = _
        rw [SparseSet.has_add, SparseSet.has_remove hwft2, SparseSet.has_remove hwft]
        simp [hchk]
      · intro x hx
        show (q.primary.add e).has x = _
        rw [SparseSet.has_add]
        simp [hx]
      · intro x hx
        show ((q.toRemove.remove e).remove e).has x = _
        rw [SparseSet.has_remove hwft2, SparseSet.has_remove hwft]
        simp [hx]
      · intro x hx
        have hx2 : ((q.toRemove.remove e).remove e).has x = true := hx
        rw [SparseSet.has_remove hwft2, SparseSet.has_remove hwft] at hx2
        have hold : q.toRemove.has x = true := by
          cases hh : q.toRemove.has x
          · rw [hh] at hx2; simp at hx2
          · rfl
        show (q.primary.add e).has x = true
        rw [SparseSet.has_add, hsub x hold]
        simp
      · intro x hx
        have hx2 : ((q.toRemove.remove e).remove e).has x = true := hx
        rw [SparseSet.has_remove hwft2, SparseSet.has_remove hwft] at hx2
        left
        cases hh : q.toRemove.has x
        · rw [hh] at hx2; simp at hx2
        · rfl
  · have hchkF : queryCheckEntity cfg w d e = false := by
      cases hh : queryCheckEntity cfg w d e
      · rfl
      · exact absurd hh hchk
    have hq2get : (w.queries.set d ⟨q.primary, q.entered.remove e, q.toRemove.remove e⟩)[d]? =
        some ⟨q.primary, q.entered.remove e, q.toRemove.remove e⟩ :=
      List.getElem?_set_self (by simpa using hdlen)
    by_cases hprim : q.primary.has e = true
    · have heqF : syncStep cfg e (w, ie, cr) d =
          (World.markDirty { w with queries := w.queries.set d ⟨q.primary, q.entered.remove e, (q.toRemove.remove e).add e⟩ } d,
           ie, Event.cleanup d e :: cr) := by
        unfold syncStep
        simp only [hq]
        have hchk2 : queryCheckEntity cfg
            { w with queries := w.queries.set d { q with toRemove := q.toRemove.remove e } }
            d e = false := hchkF
        simp only [hchk2, Bool.false_eq_true, if_false, List.set_set]
        unfold queryRemoveEntity
        simp only [hq2get]
        have hcond : (!(⟨q.primary, q.entered.remove e, q.toRemove.remove e⟩ : Query).primary.has e ||
            (⟨q.primary, q.entered.remove e, q.toRemove.remove e⟩ : Query).toRemove.has e) = false := by
          show (!q.primary.has e || (q.toRemove.remove e).has e) = false
          rw [SparseSet.has_remove hwft, hprim]
          simp
        rw [hcond]
        simp [List.set_set]
      rw [heqF]
      obtain ⟨m1, m2, m3, m4, m5, m6, m7, m8, m9, m10⟩ := markDirty_spec
        { w with queries := w.queries.set d ⟨q.primary, q.entered.remove e, (q.toRemove.remove e).add e⟩ } d
      refine ⟨m1, m2, m3, m4, m5, m6, m7, ?_, ?_, m10, ?_⟩
      · rw [m8]
        simp
      · intro x hx
        rw [m8]
        exact List.getElem?_set_ne fun hh => hx hh.symm
      · refine ⟨⟨q.primary, q.entered.remove e, (q.toRemove.remove e).add e⟩, ?_, hwfp,
          SparseSet.WF.remove hwfe e, SparseSet.WF.add hwft2 e, ?_, ?_, ?_, ?_, ?_⟩
        · rw [m8]
          exact List.getElem?_set_self (by simpa using hdlen)
        · show (q.primary.has e && !((q.toRemove.remove e).add e).has e) = _
          rw [SparseSet.has_add, hchkF]
          simp
        · intro x hx
          rfl
        · intro x hx
          show ((q.toRemove.remove e).add e).has x = _
          rw [SparseSet.has_add, SparseSet.has_remove hwft]
          have hbe : (x == e) = false := by simp [hx]
          rw [hbe]
          simp
        · intro x hx
          have hx2 : ((q.toRemove.remove e).add e).has x = true := hx
          rw [SparseSet.has_add, SparseSet.has_remove hwft] at hx2
          show q.primary.has x = true
          by_cases hxe : x = e
          · rw [hxe]
            exact hprim
          · have hold : q.toRemove.has x = true := by
              cases hh : q.toRemove.has x
              · rw [hh] at hx2
                simp [hxe] at hx2
              · rfl
            exact hsub x hold
        · intro x hx
          exact Or.inr m9
    · have hprimF : q.primary.has e = false := by
        cases hh : q.primary.has e
        · rfl
        · exact absurd hh hprim
      have heqF2 : syncStep cfg e (w, ie, cr) d =
          ({ w with queries := w.queries.set d ⟨q.primary, q.entered.remove e, q.toRemove.remove e⟩ },
           ie, cr) := by
        unfold syncStep
        simp only [hq]
        have hchk2 : queryCheckEntity cfg
            { w with queries := w.queries.set d { q with toRemove := q.toRemove.remove e } }
            d e = false := hchkF
        simp only [hchk2, Bool.false_eq_true, if_false, List.set_set]
        unfold queryRemoveEntity
        simp only [hq2get]
        have hcond : (!(⟨q.primary, q.entered.remove e, q.toRemove.remove e⟩ : Query).primary.has e ||
            (⟨q.primary, q.entered.remove e, q.toRemove.remove e⟩ : Query).toRemove.has e) = true := by
          show (!q.primary.has e || (q.toRemove.remove e).has e) = true
          rw [hprimF]
          simp
        rw [hcond]
        simp [List.set_set]
      rw [heqF2]
      refine ⟨rfl, rfl, rfl, rfl, rfl, rfl, rfl, by simp, ?_, fun dd hdd => hdd, ?_⟩
      · intro x hx
        exact List.getElem?_set_ne fun hh => hx hh.symm
      · refine ⟨⟨q.primary, q.entered.remove e, q.toRemove.remove e⟩,
          List.getElem?_set_self (by simpa using hdlen), hwfp,
          SparseSet.WF.remove hwfe e, hwft2, ?_, ?_, ?_, ?_, ?_⟩
        · show (q.primary.has e && !(q.toRemove.remove e).has e) = _
          rw [hprimF, hchkF]
          rfl
        · intro x hx
          rfl
        · intro x hx
          show (q.toRemove.remove e).has x = _
          rw [SparseSet.has_remove hwft]
          simp [hx]
        · intro x hx
          have hx2 : (q.toRemove.remove e).has x = true := hx
          rw [SparseSet.has_remove hwft] at hx2
          have hold : q.toRemove.has x = true := by
            cases hh : q.toRemove.has x
            · rw [hh] at hx2; simp at hx2
            · rfl
          exact hsub x hold
        · intro x hx
          have hx2 : (q.toRemove.remove e).has x = true := hx
          rw [SparseSet.has_remove hwft] at hx2
          left
          cases hh : q.toRemove.has x
          · rw [hh] at hx2; simp at hx2
          · rfl

def syncLoopOut (cfg : Config) (e : Nat) (L : List Nat) (w : World) (ie cr : List Event) :
    World :=
  (L.foldl (syncStep cfg e) (w, ie, cr)).1

/-- Effect of the full query re-evaluation loop: every processed query
agrees with the mask check at `e`, every query is unchanged at other
entities, and the auxiliary invariants are preserved. -/
theorem syncLoop_spec (cfg : Config) (e : Nat) (L : List Nat) :
    ∀ (w : World) (ie cr : List Event),
      WFQueries w →
      (∀ (qi : Nat) (q : Query) (x : Nat), w.queries[qi]? = some q →
        q.toRemove.has x = true → q.primary.has x = true) →
      (∀ (qi : Nat) (q : Query) (x : Nat), w.queries[qi]? = some q →
        q.toRemove.has x = true → qi ∈ w.dirtyQueries) →
      (∀ (qi : Nat) (q : Query), w.queries[qi]? = some q → qi ∉ L →
        (q.primary.has e && !q.toRemove.has e) = queryCheckEntity cfg w qi e) →
      (∀ (qi : Nat) (q : Query) (x : Nat), w.queries[qi]? = some q → x ≠ e →
        (q.primary.has x && !q.toRemove.has x) = queryCheckEntity cfg w qi x) →
      (syncLoopOut cfg e L w ie cr).entityCursor = w.entityCursor ∧
      (syncLoopOut cfg e L w ie cr).size = w.size ∧
      (syncLoopOut cfg e L w ie cr).frame = w.frame ∧
      (syncLoopOut cfg e L w ie cr).removed = w.removed ∧
      (syncLoopOut cfg e L w ie cr).entitySparseSet = w.entitySparseSet ∧
      (syncLoopOut cfg e L w ie cr).entityMasks = w.entityMasks ∧
      (syncLoopOut cfg e L w ie cr).stores = w.stores ∧
      (syncLoopOut cfg e L w ie cr).queries.length = w.queries.length ∧
      (∀ d, d ∈ w.dirtyQueries → d ∈ (syncLoopOut cfg e L w ie cr).dirtyQueries) ∧
      WFQueries (syncLoopOut cfg e L w ie cr) ∧
      (∀ (qi : Nat) (q : Query) (x : Nat), (syncLoopOut cfg e L w ie cr).queries[qi]? = some q →
        q.toRemove.has x = true → q.primary.has x = true) ∧
      (∀ (qi : Nat) (q : Query) (x : Nat), (syncLoopOut cfg e L w ie cr).queries[qi]? = some q →
        q.toRemove.has x = true → qi ∈ (syncLoopOut cfg e L w ie cr).dirtyQueries) ∧
      (∀ (qi : Nat) (q : Query), (syncLoopOut cfg e L w ie cr).queries[qi]? = some q →
        (q.primary.has e && !q.toRemove.has e) = queryCheckEntity cfg w qi e) ∧
      (∀ (qi : Nat) (q : Query) (x : Nat), (syncLoopOut cfg e L w ie cr).queries[qi]? = some q →
        x ≠ e → (q.primary.has x && !q.toRemove.has x) = queryCheckEntity cfg w qi x) := by
  induction L with
  | nil =>
    intro w ie cr hwf hsub hdirty hmainE hmainX
    exact ⟨rfl, rfl, rfl, rfl, rfl, rfl, rfl, rfl, fun d hd => hd, hwf, hsub, hdirty,
      fun qi q hq => hmainE qi q hq (List.not_mem_nil qi), hmainX⟩
  | cons d ds ih =>
    intro w ie cr hwf hsub hdirty hmainE hmainX
    have hfold : syncLoopOut cfg e (d :: ds) w ie cr =
        syncLoopOut cfg e ds (syncStep cfg e (w, ie, cr) d).1
          (syncStep cfg e (w, ie, cr) d).2.1 (syncStep cfg e (w, ie, cr) d).2.2 := rfl
    cases hqd : w.queries[d]? with
    | none =>
      have hstep : syncStep cfg e (w, ie, cr) d = (w, ie, cr) := by
        unfold syncStep
        simp [hqd]
      rw [hfold, hstep]
      exact ih w ie cr hwf hsub hdirty
        (fun qi q hq hmem => by
          by_cases hqid : qi = d
          · subst hqid
            rw [hq] at hqd
            cases hqd
          · exact hmainE qi q hq fun hm => (List.mem_cons.1 hm).elim
              (fun hh => hqid hh) hmem)
        hmainX
    | some q =>
      obtain ⟨hp0, he0, ht0⟩ := hwf d q hqd
      obtain ⟨s1, s2, s3, s4, s5, s6, s7, s8, s9, s10,
        q2, hq2, hq2p, hq2e, hq2t, hq2main, hq2px, hq2tx, hq2sub, hq2dirty⟩ :=
        syncStep_spec cfg e w ie cr d q hqd hp0 he0 ht0 (fun x => hsub d q x hqd)
      have hcheck : ∀ qi x, queryCheckEntity cfg (syncStep cfg e (w, ie, cr) d).1 qi x =
          queryCheckEntity cfg w qi x := by
        intro qi x
        apply queryCheckEntity_masks_congr
        intro g hg
        rw [s6]
      have hwf1 : WFQueries (syncStep cfg e (w, ie, cr) d).1 := by
        intro qi qq hqq
        by_cases hqid : qi = d
        · subst hqid
          rw [hq2] at hqq
          rw [← Option.some_inj.1 hqq]
          exact ⟨hq2p, hq2e, hq2t⟩
        · rw [s9 qi hqid] at hqq
          exact hwf qi qq hqq
      have hsub1 : ∀ (qi : Nat) (qq : Query) (x : Nat),
          (syncStep cfg e (w, ie, cr) d).1.queries[qi]? = some qq →
          qq.toRemove.has x = true → qq.primary.has x = true := by
        intro qi qq x hqq hx
        by_cases hqid : qi = d
        · subst hqid
          rw [hq2] at hqq
          rw [← Option.some_inj.1 hqq] at hx ⊢
          exact hq2sub x hx
        · rw [s9 qi hqid] at hqq
          exact hsub qi qq x hqq hx
      have hdirty1 : ∀ (qi : Nat) (qq : Query) (x : Nat),
          (syncStep cfg e (w, ie, cr) d).1.queries[qi]? = some qq →
          qq.toRemove.has x = true → qi ∈ (syncStep cfg e (w, ie, cr) d).1.dirtyQueries := by
        intro qi qq x hqq hx
        by_cases hqid : qi = d
        · subst hqid
          rw [hq2] at hqq
          rw [← Option.some_inj.1 hqq] at hx
          cases hq2dirty x hx with
          | inl hold => exact s10 qi (hdirty qi q x hqd hold)
          | inr hnew => exact hnew
        · rw [s9 qi hqid] at hqq
          exact s10 qi (hdirty qi qq x hqq hx)
      have hmainE1 : ∀ (qi : Nat) (qq : Query),
          (syncStep cfg e (w, ie, cr) d).1.queries[qi]? = some qq → qi ∉ ds →
          (qq.primary.has e && !qq.toRemove.has e) =
            queryCheckEntity cfg (syncStep cfg e (w, ie, cr) d).1 qi e := by
        intro qi qq hqq hmem
        rw [hcheck qi e]
        by_cases hqid : qi = d
        · subst hqid
          rw [hq2] at hqq
          rw [← Option.some_inj.1 hqq]
          exact hq2main
        · rw [s9 qi hqid] at hqq
          exact hmainE qi qq hqq fun hm => (List.mem_cons.1 hm).elim
            (fun hh => hqid hh) hmem
      have hmainX1 : ∀ (qi : Nat) (qq : Query) (x : Nat),
          (syncStep cfg e (w, ie, cr) d).1.queries[qi]? = some qq → x ≠ e →
          (qq.primary.has x && !qq.toRemove.has x) =
            queryCheckEntity cfg (syncStep cfg e (w, ie, cr) d).1 qi x := by
        intro qi qq x hqq hx
        rw [hcheck qi x]
        by_cases hqid : qi = d
        · subst hqid
          rw [hq2] at hqq
          rw [← Option.some_inj.1 hqq]
          rw [hq2px x hx, hq2tx x hx]
          exact hmainX _ q x hqd hx
        · rw [s9 qi hqid] at hqq
          exact hmainX qi qq x hqq hx
      obtain ⟨i1, i2, i3, i4, i5, i6, i7, i8, i9, i10, i11, i12, i13, i14⟩ :=
        ih (syncStep cfg e (w, ie, cr) d).1 (syncStep cfg e (w, ie, cr) d).2.1
          (syncStep cfg e (w, ie, cr) d).2.2 hwf1 hsub1 hdirty1 hmainE1 hmainX1
      rw [hfold]
      refine ⟨i1.trans s1, i2.trans s2, i3.trans s3, i4.trans s4, i5.trans s5,
        i6.trans s6, i7.trans s7, i8.trans s8, ?_, i10, i11, i12, ?_, ?_⟩
      · intro dd hdd
        exact i9 dd (s10 dd hdd)
      · intro qi qq hqq
        rw [i13 qi qq hqq, hcheck qi e]
      · intro qi qq x hqq hx
        rw [i14 qi qq x hqq hx, hcheck qi x]

/-- The reachable-world invariant behind the query-membership claim: an
entity is a committed member of a query (primary minus pending removals)
exactly when its masks match, pending removals are dirty-tracked subsets
of the members, sparse sets are well-formed and dead entities have empty
masks. -/
structure Inv (cfg : Config) (w : World) : Prop where
  qlen : w.queries.length = cfg.queries.length
  wfEnt : w.entitySparseSet.WF
  wfQ : WFQueries w
  masksDead : ∀ e, w.entitySparseSet.has e = false → ∀ g, g < cfg.genCount →
      w.entityMasks g e = 0
  toRemoveDirty : ∀ (qi : Nat) (q : Query) (e : Nat), w.queries[qi]? = some q →
      q.toRemove.has e = true → qi ∈ w.dirtyQueries
  toRemoveSub : ∀ (qi : Nat) (q : Query) (e : Nat), w.queries[qi]? = some q →
      q.toRemove.has e = true → q.primary.has e = true
  main : ∀ (qi : Nat) (q : Query) (e : Nat), w.queries[qi]? = some q →
      (q.primary.has e && !q.toRemove.has e) = queryCheckEntity cfg w qi e

theorem Inv_init (cfg : Config) (hcfg : WFConfig cfg) (size : Nat) :
    Inv cfg (initWorld cfg size) := by
  have hget : ∀ (qi : Nat) (q : Query), (initWorld cfg size).queries[qi]? = some q →
      q = initQuery ∧ qi < cfg.queries.length := by
    intro qi q hq
    have hq2 : (cfg.queries.map fun _ => initQuery)[qi]? = some q := hq
    rw [List.getElem?_map] at hq2
    cases hc : cfg.queries[qi]? with
    | none => rw [hc] at hq2; cases hq2
    | some qs =>
      rw [hc] at hq2
      simp only [Option.map_some'] at hq2
      exact ⟨(Option.some_inj.1 hq2).symm, (List.getElem?_eq_some.1 hc).1⟩
  refine ⟨by simp [initWorld], SparseSet.empty_WF, ?_, ?_, ?_, ?_, ?_⟩
  · intro qi q hq
    rw [(hget qi q hq).1]
    exact ⟨SparseSet.empty_WF, SparseSet.empty_WF, SparseSet.empty_WF⟩
  · intro e he g hg
    rfl
  · intro qi q e hq ht
    rw [(hget qi q hq).1] at ht
    have ht2 : SparseSet.empty.has e = true := ht
    rw [SparseSet.has_empty] at ht2
    cases ht2
  · intro qi q e hq ht
    rw [(hget qi q hq).1] at ht
    have ht2 : SparseSet.empty.has e = true := ht
    rw [SparseSet.has_empty] at ht2
    cases ht2
  · intro qi q e hq
    obtain ⟨hqi, hlt⟩ := hget qi q hq
    rw [hqi]
    rw [queryCheckEntity_false_of_zero hcfg hlt fun g hg => rfl]
    rfl

theorem Inv_commitRemovals {cfg : Config} {w : World} (hI : Inv cfg w) :
    Inv cfg (commitRemovals w) := by
  obtain ⟨c1, c2, c3, c4, c5, c6, c7, c8, c9⟩ := commitRemovals_fields w
  have hq := commitRemovals_queries w hI.wfQ
  have hcheck : ∀ qi x, queryCheckEntity cfg (commitRemovals w) qi x =
      queryCheckEntity cfg w qi x := by
    intro qi x
    apply queryCheckEntity_masks_congr
    intro g hg
    rw [c6]
  have hdesc : ∀ (qi : Nat) (q2 : Query), (commitRemovals w).queries[qi]? = some q2 →
      ∃ q : Query, w.queries[qi]? = some q ∧
        ((qi ∈ w.dirtyQueries ∧ q2 = queryCommitRemovals q) ∨
         (qi ∉ w.dirtyQueries ∧ q2 = q)) := by
    intro qi q2 hq2
    rw [hq qi] at hq2
    by_cases hd : qi ∈ w.dirtyQueries
    · rw [if_pos hd] at hq2
      cases hc : w.queries[qi]? with
      | none => rw [hc] at hq2; cases hq2
      | some q =>
        rw [hc] at hq2
        simp only [Option.map_some'] at hq2
        exact ⟨q, rfl, Or.inl ⟨hd, (Option.some_inj.1 hq2).symm⟩⟩
    · rw [if_neg hd] at hq2
      exact ⟨q2, hq2, Or.inr ⟨hd, rfl⟩⟩
  refine ⟨by rw [c9, hI.qlen], by rw [c5]; exact hI.wfEnt, ?_, ?_, ?_, ?_, ?_⟩
  · intro qi q2 hq2
    obtain ⟨q, hqq, hcase⟩ := hdesc qi q2 hq2
    obtain ⟨hp, he, ht⟩ := hI.wfQ qi q hqq
    cases hcase with
    | inl hc =>
      obtain ⟨hs1, hs2, hs3, _, _⟩ := queryCommitRemovals_spec q hp ht
      rw [hc.2]
      exact ⟨hs1, hs3 ▸ he, hs2⟩
    | inr hc =>
      rw [hc.2]
      exact ⟨hp, he, ht⟩
  · intro e he g hg
    rw [c6]
    rw [c5] at he
    exact hI.masksDead e he g hg
  · intro qi q2 e hq2 ht
    obtain ⟨q, hqq, hcase⟩ := hdesc qi q2 hq2
    obtain ⟨hp, _, ht0⟩ := hI.wfQ qi q hqq
    cases hcase with
    | inl hc =>
      obtain ⟨_, _, _, hnil, _⟩ := queryCommitRemovals_spec q hp ht0
      rw [hc.2] at ht
      rw [SparseSet.has_of_dense_nil hnil] at ht
      cases ht
    | inr hc =>
      rw [hc.2] at ht
      exact absurd (hI.toRemoveDirty qi q e hqq ht) hc.1
  · intro qi q2 e hq2 ht
    obtain ⟨q, hqq, hcase⟩ := hdesc qi q2 hq2
    obtain ⟨hp, _, ht0⟩ := hI.wfQ qi q hqq
    cases hcase with
    | inl hc =>
      obtain ⟨_, _, _, hnil, _⟩ := queryCommitRemovals_spec q hp ht0
      rw [hc.2] at ht
      rw [SparseSet.has_of_dense_nil hnil] at ht
      cases ht
    | inr hc =>
      rw [hc.2] at ht ⊢
      exact hI.toRemoveSub qi q e hqq ht
  · intro qi q2 e hq2
    obtain ⟨q, hqq, hcase⟩ := hdesc qi q2 hq2
    obtain ⟨hp, _, ht0⟩ := hI.wfQ qi q hqq
    rw [hcheck qi e]
    cases hcase with
    | inl hc =>
      obtain ⟨_, _, _, hnil, hhas⟩ := queryCommitRemovals_spec q hp ht0
      rw [hc.2]
      rw [SparseSet.has_of_dense_nil hnil, hhas e]
      rw [← hI.main qi q e hqq]
      simp
    | inr hc =>
      rw [hc.2]
      exact hI.main qi q e hqq

theorem Inv_addEntity {cfg : Config} {w : World} (hI : Inv cfg w) :
    Inv cfg (addEntity w).1 := by
  unfold addEntity
  by_cases h1 : w.removed.length > removedReuseThresholdOf w.size
  · simp only [h1, if_true]
    by_cases h2 : (w.removed.getLast?).getD 0 > w.size
    · simp only [h2, if_true]
      exact ⟨hI.qlen, hI.wfEnt, hI.wfQ, hI.masksDead, hI.toRemoveDirty, hI.toRemoveSub, hI.main⟩
    · simp only [h2, if_false]
      refine ⟨hI.qlen, SparseSet.WF.add hI.wfEnt _, hI.wfQ, ?_, hI.toRemoveDirty,
        hI.toRemoveSub, hI.main⟩
      intro e he g hg
      rw [SparseSet.has_add] at he
      have he2 : w.entitySparseSet.has e = false := by
        cases hh : w.entitySparseSet.has e
        · rfl
        · rw [hh] at he; simp at he
      exact hI.masksDead e he2 g hg
  · simp only [h1, if_false]
    by_cases h2 : w.entityCursor > w.size
    · simp only [h2, if_true]
      exact ⟨hI.qlen, hI.wfEnt, hI.wfQ, hI.masksDead, hI.toRemoveDirty, hI.toRemoveSub, hI.main⟩
    · simp only [h2, if_false]
      refine ⟨hI.qlen, SparseSet.WF.add hI.wfEnt _, hI.wfQ, ?_, hI.toRemoveDirty,
        hI.toRemoveSub, hI.main⟩
      intro e he g hg
      rw [SparseSet.has_add] at he
      have he2 : w.entitySparseSet.has e = false := by
        cases hh : w.entitySparseSet.has e
        · rfl
        · rw [hh] at he; simp at he
      exact hI.masksDead e he2 g hg

theorem Inv_removeEntity {cfg : Config} {w : World} (hcfg : WFConfig cfg) (hI : Inv cfg w)
    (e : Nat) : Inv cfg (removeEntity cfg w e).1 := by
  by_cases hex : w.entitySparseSet.has e = true
  · obtain ⟨l1, l2, l3, l4, l5, l6, l7, l8, l9, l10⟩ :=
      removeLoop_spec e (List.range w.queries.length) w []
    have hre : (removeEntity cfg w e).1 =
        { removeLoopOut e (List.range w.queries.length) w [] with
          removed := (removeLoopOut e (List.range w.queries.length) w []).removed ++ [e]
          entitySparseSet :=
            (removeLoopOut e (List.range w.queries.length) w []).entitySparseSet.remove e
          entityMasks := fun g x =>
            (if g < cfg.genCount ∧ x = e then 0
             else (removeLoopOut e (List.range w.queries.length) w []).entityMasks g x) } := by
      unfold removeEntity removeLoopOut removeStep
      simp only [hex, Bool.not_true, Bool.false_eq_true, if_false]
    have hdesc : ∀ (qi : Nat) (q2 : Query),
        (removeLoopOut e (List.range w.queries.length) w []).queries[qi]? = some q2 →
        ∃ q : Query, w.queries[qi]? = some q ∧ q2.primary = q.primary ∧
          q2.entered = q.entered ∧
          ((q2 = q) ∨ (q2.toRemove = q.toRemove.add e ∧ q.primary.has e = true ∧
            q.toRemove.has e = false ∧
            qi ∈ (removeLoopOut e (List.range w.queries.length) w []).dirtyQueries)) ∧
          (q.primary.has e = true → q2.toRemove.has e = true) := by
      intro qi q2 hq2
      have hlt : qi < w.queries.length := by
        have h0 := (List.getElem?_eq_some.1 hq2).1
        rwa [l8] at h0
      have hw : w.queries[qi]? = some w.queries[qi] := List.getElem?_eq_getElem hlt
      obtain ⟨q2x, hq2x, hpp, hee, hdd, hll⟩ := l10 qi _ hw
      have hq2eq : q2x = q2 := Option.some_inj.1 (hq2x.symm.trans hq2)
      subst hq2eq
      exact ⟨_, hw, hpp, hee, hdd, fun hp => hll (List.mem_range.2 hlt) hp⟩
    rw [hre]
    have hcheckX : ∀ (qi x : Nat), x ≠ e →
        queryCheckEntity cfg
          { removeLoopOut e (List.range w.queries.length) w [] with
            removed := (removeLoopOut e (List.range w.queries.length) w []).removed ++ [e]
            entitySparseSet :=
              (removeLoopOut e (List.range w.queries.length) w []).entitySparseSet.remove e
            entityMasks := fun g x =>
              (if g < cfg.genCount ∧ x = e then 0
               else (removeLoopOut e (List.range w.queries.length) w []).entityMasks g x) }
          qi x = queryCheckEntity cfg w qi x := by
      intro qi x hx
      apply queryCheckEntity_masks_congr
      intro g hg
      show (if g < cfg.genCount ∧ x = e then 0
        else (removeLoopOut e (List.range w.queries.length) w []).entityMasks g x) &&& _ = _
      rw [if_neg fun hh => hx hh.2, l6]
    refine ⟨?_, ?_, ?_, ?_, ?_, ?_, ?_⟩
    · show (removeLoopOut e (List.range w.queries.length) w []).queries.length =
        cfg.queries.length
      rw [l8]
      exact hI.qlen
    · show ((removeLoopOut e (List.range w.queries.length) w []).entitySparseSet.remove e).WF
      rw [l5]
      exact SparseSet.WF.remove hI.wfEnt e
    · intro qi q2 hq2
      obtain ⟨q, hw, hpp, hee, hdd, _⟩ := hdesc qi q2 hq2
      obtain ⟨h1, h2, h3⟩ := hI.wfQ qi q hw
      refine ⟨hpp ▸ h1, hee ▸ h2, ?_⟩
      cases hdd with
      | inl hqe => rw [hqe]; exact h3
      | inr hmod => rw [hmod.1]; exact SparseSet.WF.add h3 e
    · intro x hxdead g hg
      show (if g < cfg.genCount ∧ x = e then 0
        else (removeLoopOut e (List.range w.queries.length) w []).entityMasks g x) = 0
      by_cases hxe : x = e
      · rw [if_pos ⟨hg, hxe⟩]
      · rw [if_neg fun hh => hxe hh.2, l6]
        have hdead : w.entitySparseSet.has x = false := by
          have hxd : ((removeLoopOut e (List.range w.queries.length) w
              []).entitySparseSet.remove e).has x = false := hxdead
          rw [l5, SparseSet.has_remove hI.wfEnt] at hxd
          cases hh : w.entitySparseSet.has x
          · rfl
          · rw [hh] at hxd
            simp [hxe] at hxd
        exact hI.masksDead x hdead g hg
    · intro qi q2 x hq2 ht
      obtain ⟨q, hw, hpp, hee, hdd, _⟩ := hdesc qi q2 hq2
      show qi ∈ (removeLoopOut e (List.range w.queries.length) w []).dirtyQueries
      cases hdd with
      | inl hqe =>
        rw [hqe] at ht
        exact l9 qi (hI.toRemoveDirty qi q x hw ht)
      | inr hmod =>
        rw [hmod.1, SparseSet.has_add] at ht
        by_cases hxe : x = e
        · exact hmod.2.2.2
        · have hold : q.toRemove.has x = true := by
            cases hh : q.toRemove.has x
            · rw [hh] at ht; simp [hxe] at ht
            · rfl
          exact l9 qi (hI.toRemoveDirty qi q x hw hold)
    · intro qi q2 x hq2 ht
      obtain ⟨q, hw, hpp, hee, hdd, _⟩ := hdesc qi q2 hq2
      rw [hpp]
      cases hdd with
      | inl hqe =>
        rw [hqe] at ht
        exact hI.toRemoveSub qi q x hw ht
      | inr hmod =>
        rw [hmod.1, SparseSet.has_add] at ht
        by_cases hxe : x = e
        · rw [hxe]
          exact hmod.2.1
        · have hold : q.toRemove.has x = true := by
            cases hh : q.toRemove.has x
            · rw [hh] at ht; simp [hxe] at ht
            · rfl
          exact hI.toRemoveSub qi q x hw hold
    · intro qi q2 x hq2
      obtain ⟨q, hw, hpp, hee, hdd, hlast⟩ := hdesc qi q2 hq2
      by_cases hxe : x = e
      · rw [hxe]
        have hqilt : qi < cfg.queries.length := by
          have h0 := (List.getElem?_eq_some.1 hq2).1
          rw [l8, hI.qlen] at h0
          exact h0
        rw [queryCheckEntity_false_of_zero hcfg hqilt ?hz]
        case hz =>
          intro g hg
          show (if g < cfg.genCount ∧ e = e then 0
            else (removeLoopOut e (List.range w.queries.length) w []).entityMasks g e) = 0
          rw [if_pos ⟨hg, rfl⟩]
        by_cases hpm : q.primary.has e = true
        · rw [hlast hpm]
          simp
        · have hpf : q.primary.has e = false := by
            cases hh : q.primary.has e
            · rfl
            · exact absurd hh hpm
          rw [hpp, hpf]
          rfl
      · rw [hcheckX qi x hxe, hpp]
        have hto : q2.toRemove.has x = q.toRemove.has x := by
          cases hdd with
          | inl hqe => rw [hqe]
          | inr hmod =>
            rw [hmod.1, SparseSet.has_add]
            simp [hxe]
        rw [hto]
        exact hI.main qi q x hw
  · have hex2 : w.entitySparseSet.has e = false := by
      cases hh : w.entitySparseSet.has e
      · rfl
      · exact absurd hh hex
    have hre : (removeEntity cfg w e).1 = w := by
      unfold removeEntity
      simp [hex2]
    rw [hre]
    exact hI

/-- The query re-evaluation loop restores the membership invariant after
a single-entity mask update whose new bits are disjoint from every
non-referencing query's mask. -/
theorem Inv_syncQueries {cfg : Config} (hcfg : WFConfig cfg) {w wU : World} (hI : Inv cfg w)
    {ci e : Nat} {c : Comp} (hc : cfg.comps[ci]? = some c) (f : Nat → Nat)
    (hUq : wU.queries = w.queries)
    (hUd : wU.dirtyQueries = w.dirtyQueries)
    (hUs : wU.entitySparseSet = w.entitySparseSet)
    (hUm : ∀ g x, wU.entityMasks g x =
      (if g = c.gen ∧ x = e then f (w.entityMasks c.gen e) else w.entityMasks g x))
    (hdis : ∀ qi, ci ∉ cfg.queryComps qi →
      f (w.entityMasks c.gen e) &&& cfg.queryMask qi c.gen =
        w.entityMasks c.gen e &&& cfg.queryMask qi c.gen)
    (hlive : w.entitySparseSet.has e = true) :
    Inv cfg (syncQueries cfg wU ci e).1 := by
  have hcheckNE : ∀ (qi x : Nat), x ≠ e →
      queryCheckEntity cfg wU qi x = queryCheckEntity cfg w qi x := by
    intro qi x hx
    apply queryCheckEntity_masks_congr
    intro g hg
    rw [hUm g x, if_neg fun hh => hx hh.2]
  have hcheckNR : ∀ qi : Nat, ci ∉ cfg.queryComps qi →
      queryCheckEntity cfg wU qi e = queryCheckEntity cfg w qi e := by
    intro qi hnot
    apply queryCheckEntity_masks_congr
    intro g hg
    rw [hUm g e]
    by_cases hgc : g = c.gen
    · rw [if_pos ⟨hgc, rfl⟩, hgc]
      exact hdis qi hnot
    · rw [if_neg fun hh => hgc hh.1]
  have hwf0 : WFQueries wU := by
    intro qi q hq
    rw [hUq] at hq
    exact hI.wfQ qi q hq
  have hsub0 : ∀ (qi : Nat) (q : Query) (x : Nat), wU.queries[qi]? = some q →
      q.toRemove.has x = true → q.primary.has x = true := by
    intro qi q x hq
    rw [hUq] at hq
    exact hI.toRemoveSub qi q x hq
  have hdirty0 : ∀ (qi : Nat) (q : Query) (x : Nat), wU.queries[qi]? = some q →
      q.toRemove.has x = true → qi ∈ wU.dirtyQueries := by
    intro qi q x hq ht
    rw [hUq] at hq
    rw [hUd]
    exact hI.toRemoveDirty qi q x hq ht
  have hmainE0 : ∀ (qi : Nat) (q : Query), wU.queries[qi]? = some q →
      qi ∉ referencingQueries cfg ci →
      (q.primary.has e && !q.toRemove.has e) = queryCheckEntity cfg wU qi e := by
    intro qi q hq hmem
    rw [hUq] at hq
    have hlt : qi < cfg.queries.length := by
      have h0 := (List.getElem?_eq_some.1 hq).1
      rwa [hI.qlen] at h0
    have hnot : ci ∉ cfg.queryComps qi := by
      intro hin
      exact hmem (List.mem_filter.2 ⟨List.mem_range.2 hlt, by simp [hin]⟩)
    rw [hcheckNR qi hnot]
    exact hI.main qi q e hq
  have hmainX0 : ∀ (qi : Nat) (q : Query) (x : Nat), wU.queries[qi]? = some q → x ≠ e →
      (q.primary.has x && !q.toRemove.has x) = queryCheckEntity cfg wU qi x := by
    intro qi q x hq hx
    rw [hUq] at hq
    rw [hcheckNE qi x hx]
    exact hI.main qi q x hq
  obtain ⟨i1, i2, i3, i4, i5, i6, i7, i8, i9, i10, i11, i12, i13, i14⟩ :=
    syncLoop_spec cfg e (referencingQueries cfg ci) wU [] []
      hwf0 hsub0 hdirty0 hmainE0 hmainX0
  have hout : (syncQueries cfg wU ci e).1 =
      syncLoopOut cfg e (referencingQueries cfg ci) wU [] [] := rfl
  rw [hout]
  have hcheckOut : ∀ qi x,
      queryCheckEntity cfg (syncLoopOut cfg e (referencingQueries cfg ci) wU [] []) qi x =
      queryCheckEntity cfg wU qi x := by
    intro qi x
    apply queryCheckEntity_masks_congr
    intro g hg
    rw [i6]
  refine ⟨?_, ?_, i10, ?_, i12, i11, ?_⟩
  · rw [i8, hUq]
    exact hI.qlen
  · rw [i5, hUs]
    exact hI.wfEnt
  · intro x hx g hg
    rw [i5, hUs] at hx
    rw [i6, hUm g x]
    have hxe : x ≠ e := by
      intro he
      rw [he, hlive] at hx
      cases hx
    rw [if_neg fun hh => hxe hh.2]
    exact hI.masksDead x hx g hg
  · intro qi q x hq
    rw [hcheckOut qi x]
    by_cases hx : x = e
    · rw [hx]
      exact i13 qi q hq
    · exact i14 qi q x hq hx

/-- `addComponent` preserves the reachable-world invariant whenever the
validator accepts the overrides (the failing-validation branch leaves the
mask set without re-evaluating the queries and genuinely breaks it). -/
theorem Inv_addComponent {cfg : Config} (hcfg : WFConfig cfg) {w : World} (hI : Inv cfg w)
    (ci e : Nat) (ov : List (String × Int)) (rst : Option Bool)
    (hval : ∀ c, cfg.comps[ci]? = some c → c.validate ov = true) :
    Inv cfg (addComponent cfg w ci e ov rst).1 := by
  by_cases hex : w.entitySparseSet.has e = true
  · cases hc : cfg.comps[ci]? with
    | none =>
      have hres : (addComponent cfg w ci e ov rst).1 = w := by
        unfold addComponent
        simp [hex, hc]
      rw [hres]
      exact hI
    | some c =>
      by_cases hhas : hasComponent cfg w ci e = true
      · have hres : (addComponent cfg w ci e ov rst).1 = w := by
          unfold addComponent
          simp [hex, hc, hhas]
        rw [hres]
        exact hI
      · have hhasF : hasComponent cfg w ci e = false := by
          cases hh : hasComponent cfg w ci e
          · rfl
          · exact absurd hh hhas
        have hv := hval c hc
        by_cases hr : rst = some false
        · unfold addComponent
          simp only [hex, Bool.not_true, Bool.false_eq_true, if_false, hc, hhasF, hv, hr,
            if_true]
          exact Inv_syncQueries hcfg hI hc (fun m => m ||| c.bitflag) rfl rfl rfl
            (fun g x => rfl)
            (fun qi hnot => land_or_of_disjoint
              fun t ht => (queryMask_disjoint hcfg hc hnot t ht).1)
            hex
        · unfold addComponent
          simp only [hex, Bool.not_true, Bool.false_eq_true, if_false, hc, hhasF, hv, hr,
            if_true]
          exact Inv_syncQueries hcfg hI hc (fun m => m ||| c.bitflag) rfl rfl rfl
            (fun g x => rfl)
            (fun qi hnot => land_or_of_disjoint
              fun t ht => (queryMask_disjoint hcfg hc hnot t ht).1)
            hex
  · have hex2 : w.entitySparseSet.has e = false := by
      cases hh : w.entitySparseSet.has e
      · rfl
      · exact absurd hh hex
    have hres : (addComponent cfg w ci e ov rst).1 = w := by
      unfold addComponent
      simp [hex2]
    rw [hres]
    exact hI

/-- `removeComponent` preserves the reachable-world invariant. -/
theorem Inv_removeComponent {cfg : Config} (hcfg : WFConfig cfg) {w : World} (hI : Inv cfg w)
    (ci e : Nat) : Inv cfg (removeComponent cfg w ci e).1 := by
  by_cases hex : w.entitySparseSet.has e = true
  · by_cases hhas : hasComponent cfg w ci e = true
    · cases hc : cfg.comps[ci]? with
      | none =>
        have hres : (removeComponent cfg w ci e).1 = w := by
          unfold removeComponent
          simp [hex, hhas, hc]
        rw [hres]
        exact hI
      | some c =>
        unfold removeComponent
        simp only [hex, Bool.not_true, Bool.false_eq_true, if_false, hhas, if_true, hc]
        exact Inv_syncQueries hcfg hI hc
          (fun m => m &&& (4294967295 ^^^ c.bitflag)) rfl rfl rfl
          (fun g x => rfl)
          (fun qi hnot => land_clear_of_disjoint (queryMask_disjoint hcfg hc hnot))
          hex
    · have hhasF : hasComponent cfg w ci e = false := by
        cases hh : hasComponent cfg w ci e
        · rfl
        · exact absurd hh hhas
      have hres : (removeComponent cfg w ci e).1 = w := by
        unfold removeComponent
        simp [hex, hhasF]
      rw [hres]
      exact hI
  · have hex2 : w.entitySparseSet.has e = false := by
      cases hh : w.entitySparseSet.has e
      · rfl
      · exact absurd hh hex
    have hres : (removeComponent cfg w ci e).1 = w := by
      unfold removeComponent
      simp [hex2]
    rw [hres]
    exact hI

/-- An operation is valid when any `addComponent` it performs passes the
component's validator; all other operations are unconditionally valid. -/
def opValid (cfg : Config) : Op → Prop
  | .addComp ci _ ov _ => ∀ c, cfg.comps[ci]? = some c → c.validate ov = true
  | _ => True

theorem Inv_applyOp {cfg : Config} (hcfg : WFConfig cfg) {w : World} (hI : Inv cfg w)
    {op : Op} (hv : opValid cfg op) : Inv cfg (applyOp cfg w op) := by
  cases op with
  | newEntity => exact Inv_addEntity hI
  | delEntity e => exact Inv_removeEntity hcfg hI e
  | addComp ci e ov rst => exact Inv_addComponent hcfg hI ci e ov rst hv
  | delComp ci e => exact Inv_removeComponent hcfg hI ci e
  | commit => exact Inv_commitRemovals hI

theorem Inv_foldOps {cfg : Config} (hcfg : WFConfig cfg) :
    ∀ (ops : List Op) (w : World), Inv cfg w → (∀ op ∈ ops, opValid cfg op) →
      Inv cfg (ops.foldl (applyOp cfg) w) := by
  intro ops
  induction ops with
  | nil =>
    intro w hI _
    exact hI
  | cons op ops ih =>
    intro w hI hv
    exact ih (applyOp cfg w op)
      (Inv_applyOp hcfg hI (hv op (List.mem_cons_self op ops)))
      (fun o ho => hv o (List.mem_cons_of_mem op ho))

/-- Every world reachable by a valid operation sequence satisfies the
membership invariant. -/
theorem Inv_runOps (cfg : Config) (hcfg : WFConfig cfg) (size : Nat) (ops : List Op)
    (hv : ∀ op ∈ ops, opValid cfg op) : Inv cfg (runOps cfg size ops) :=
  Inv_foldOps hcfg ops (initWorld cfg size) (Inv_init cfg hcfg size) hv

/-! ## Byte-level serializer header (Serialize.ts `serializeWorldToBuffer`,
Deserialize.ts `deserializeFromBuffer`)

The buffer is a byte list; `DataView.setUint16` is big-endian.  The
serializer writes the u16 version, then one mode byte, and (for a
non-empty world) the entity sparse set followed by the rest of the
stream.  The deserializer checks the u16 version and then reads the
entity sparse set at offset 2.  JS `?? -1` holes and the 65535 sentinel
are kept; reads past the buffer end (a `RangeError` in JS) return
`none`. -/

def SERIALIZER_VERSION : Nat := 2

def u16bytes (v : Nat) : List Nat := [v / 256 % 256, v % 256]

def u8bytes (v : Nat) : List Nat := [v % 256]

/-- JS `ToUint16` of an integer (`view.setUint16` on `-1` stores 65535). -/
def jsU16 (x : Int) : Nat := (x % 65536).toNat

def serializeSparseSetToBuffer (dense sparse : List Int) : List Nat :=
  u16bytes dense.length ++ (dense.map fun d => u16bytes (jsU16 d)).flatten ++
  u16bytes sparse.length ++ (sparse.map fun s => u16bytes (jsU16 s)).flatten

/-- The start of `serializeWorldToBuffer`: version, mode byte, early
return on an empty world, then the entity sparse set; `rest` stands for
the remainder of the stream (removed list, cursors, component map, query
map, dirty queries, entities). -/
def serializeWorldToBufferPrefix (dense sparse : List Int) (mode : Nat)
    (rest : List Nat) : List Nat :=
  u16bytes SERIALIZER_VERSION ++ u8bytes mode ++
  (if dense.length = 0 then [] else serializeSparseSetToBuffer dense sparse ++ rest)

def readU16 (b : List Nat) (off : Nat) : Option Nat :=
  match b[off]?, b[off + 1]? with
  | some hi, some lo => some (hi * 256 + lo)
  | _, _ => none

/-- Reading `n` consecutive u16 values (`deserializeSparseSetFromBuffer`'s
entry loops, including the `=== 65535 → -1` rewrite). -/
def readU16s (b : List Nat) : Nat → Nat → Option (Nat × List Int)
  | off, 0 => some (off, [])
  | off, n + 1 =>
    match readU16 b off with
    | none => none
    | some v =>
      match readU16s b (off + 2) n with
      | none => none
      | some (o, l) => some (o, (if v = 65535 then (-1 : Int) else (v : Int)) :: l)

def deserializeSparseSetFromBuffer (b : List Nat) (off : Nat) :
    Option (Nat × List Int × List Int) :=
  match readU16 b off with
  | none => none
  | some dl =>
    match readU16s b (off + 2) dl with
    | none => none
    | some (o1, dense) =>
      match readU16 b o1 with
      | none => none
      | some (sl) =>
        match readU16s b (o1 + 2) sl with
        | none => none
        | some (o2, sparse) => some (o2, dense, sparse)

/-- The start of `deserializeFromBuffer`: u16 version check, then the
entity sparse set read at offset 2 — the mode byte the serializer wrote
there is never skipped. -/
def deserializeFromBufferStart (b : List Nat) : Option (Nat × List Int × List Int) :=
  match readU16 b 0 with
  | none => none
  | some version =>
    if version ≠ SERIALIZER_VERSION then none
    else deserializeSparseSetFromBuffer b 2

/-! ## Typed subarray index type (World.ts `createArrayStore`,
`UNSIGNED_MAX`) -/

inductive IndexKind where
  | ui8
  | ui16
  | ui32
deriving DecidableEq

def UNSIGNED_MAX_uint8 : Nat := 2 ^ 8

def UNSIGNED_MAX_uint16 : Nat := 2 ^ 16

/-- The index element type `createArrayStore` picks for a subarray of the
given length. -/
def subarrayIndexType (len : Nat) : IndexKind :=
  if len ≤ UNSIGNED_MAX_uint8 then .ui8
  else if len ≤ UNSIGNED_MAX_uint16 then .ui16
  else .ui32

/-- The index element type the specification prescribes: u8 up to 255,
u16 up to 65535, else u32. -/
def specSubarrayIndexType (len : Nat) : IndexKind :=
  if len ≤ 255 then .ui8
  else if len ≤ 65535 then .ui16
  else .ui32

def indexTypeBytes : IndexKind → Nat
  | .ui8 => 1
  | .ui16 => 2
  | .ui32 => 4

/-- Storing a value through `view.set<indexType>` truncates it to the
element width (the serializer stores the per-entity dirty-element count
this way). -/
def indexTypeWrite (k : IndexKind) (v : Nat) : Nat := v % 2 ^ (8 * indexTypeBytes k)

/-! ## Concrete registrations used by the witnesses and counterexamples -/

/-- The always-accepting single component used by `cfgA` and `cfgD`. -/
def cA : Comp := ⟨0, 1, fun _ => true⟩

/-- A component whose validator accepts only empty override lists. -/
def cV : Comp := ⟨0, 1, fun ov => ov.isEmpty⟩

/-- One component, one query over it, no systems. -/
def cfgA : Config :=
  { comps := [cA]
    queries := [⟨[0]⟩]
    genCount := 1
    systems := []
    drawSystems := [] }

/-- One rejecting-validator component, one query over it. -/
def cfgV : Config :=
  { comps := [cV]
    queries := [⟨[0]⟩]
    genCount := 1
    systems := []
    drawSystems := [] }

/-- Like `cfgA` with one hook-free auto system and one hook-free draw
system over the query. -/
def cfgD : Config :=
  { comps := [cA]
    queries := [⟨[0]⟩]
    genCount := 1
    systems := [⟨0, none⟩]
    drawSystems := [⟨0, none⟩] }

theorem WFConfig_single {v : List (String × Int) → Bool} {ss ds : List SystemImpl} :
    WFConfig { comps := [⟨0, 1, v⟩], queries := [⟨[0]⟩], genCount := 1,
               systems := ss, drawSystems := ds } := by
  refine ⟨?_, ?_, ?_, ?_, ?_⟩
  · intro c hc
    rw [List.mem_singleton.1 hc]
    exact ⟨0, by omega, rfl⟩
  · intro c hc
    rw [List.mem_singleton.1 hc]
    exact Nat.zero_lt_one
  · intro i j ci cj hi hj hij
    match i, hi with
    | 0, hi =>
      match j, hj with
      | 0, hj => exact absurd rfl hij
      | j + 1, hj => exact absurd hj (by simp)
    | i + 1, hi => exact absurd hi (by simp)
  · intro qs hqs
    rw [List.mem_singleton.1 hqs]
    simp
  · intro qs hqs ci hci
    rw [List.mem_singleton.1 hqs] at hci
    have h0 : ci = 0 := List.mem_singleton.1 hci
    rw [h0]
    exact Nat.zero_lt_one

theorem WFConfig_cfgA : WFConfig cfgA := WFConfig_single

theorem WFConfig_cfgV : WFConfig cfgV := WFConfig_single

theorem WFConfig_cfgD : WFConfig cfgD := WFConfig_single

/-! ## Claim theorems -/

/-- C1: the serializer writes a u16 version, then a mode byte at offset
2, and only then the entity sparse set; the deserializer consumes the
sparse set directly at offset 2, so the layouts disagree.  For the world
whose entity sparse set is dense = [0], sparse = [0] serialized with
mode 0 and any remaining stream: the bytes written are fixed up to the
tail; reading a sparse set one byte later (offset 3, i.e. the layout the
serializer actually produced) recovers dense = [0], sparse = [0]; but
`deserializeFromBuffer`'s own read at offset 2 takes the mode byte as
the high byte of the dense length, recovers an empty dense list (or
faults past the buffer end), and therefore cannot return the serialized
world.  The claimed round-trip `deserialize(serialize(w)) ≡ w` fails. -/
theorem C1_serialize_mode_byte_desync (rest : List Nat) :
    serializeWorldToBufferPrefix [0] [0] 0 rest =
      0 :: 2 :: 0 :: 0 :: 1 :: 0 :: 0 :: 0 :: 1 :: 0 :: 0 :: rest ∧
    deserializeSparseSetFromBuffer (serializeWorldToBufferPrefix [0] [0] 0 rest) 3 =
      some (11, [0], [0]) ∧
    ((deserializeFromBufferStart (serializeWorldToBufferPrefix [0] [0] 0 rest)).map
      fun r => r.2.1).getD [] = [] := by
  have hser : serializeWorldToBufferPrefix [0] [0] 0 rest =
      0 :: 2 :: 0 :: 0 :: 1 :: 0 :: 0 :: 0 :: 1 :: 0 :: 0 :: rest := rfl
  refine ⟨hser, ?_, ?_⟩
  · rw [hser]
    simp [deserializeSparseSetFromBuffer, readU16, readU16s]
  · rw [hser]
    have h0 : readU16 (0 :: 2 :: 0 :: 0 :: 1 :: 0 :: 0 :: 0 :: 1 :: 0 :: 0 :: rest) 0 =
        some 2 := by simp [readU16]
    have h2 : readU16 (0 :: 2 :: 0 :: 0 :: 1 :: 0 :: 0 :: 0 :: 1 :: 0 :: 0 :: rest) 2 =
        some 0 := by simp [readU16]
    have h4 : readU16 (0 :: 2 :: 0 :: 0 :: 1 :: 0 :: 0 :: 0 :: 1 :: 0 :: 0 :: rest) 4 =
        some 256 := by simp [readU16]
    have hr0 : readU16s (0 :: 2 :: 0 :: 0 :: 1 :: 0 :: 0 :: 0 :: 1 :: 0 :: 0 :: rest) 4 0 =
        some (4, []) := rfl
    set_option maxRecDepth 8192 in
    simp only [deserializeFromBufferStart, SERIALIZER_VERSION, h0, ne_eq,
      deserializeSparseSetFromBuffer, h2, h4]
    cases hh : readU16s (0 :: 2 :: 0 :: 0 :: 1 :: 0 :: 0 :: 0 :: 1 :: 0 :: 0 :: rest) 6 256 with
    | none =>
      simp only [not_true, if_false, Nat.reduceAdd, hr0, h4, hh]
      rfl
    | some p =>
      obtain ⟨o, l⟩ := p
      simp only [not_true, if_false, Nat.reduceAdd, hr0, h4, hh]
      rfl

/-- C6: `UNSIGNED_MAX.uint8` is `2 ** 8 = 256` and `UNSIGNED_MAX.uint16`
is `2 ** 16 = 65536`, so `createArrayStore` picks an index type with
thresholds one above the claimed 255 and 65535.  At length 256 the code
picks u8 where the claim prescribes u16, and the serializer's
dirty-element count of a fully-written length-256 subarray then
truncates to 0 in that u8 cell; at length 65536 the code picks u16 where
the claim prescribes u32.  All other lengths agree. -/
theorem C6_subarray_index_type_off_by_one :
    subarrayIndexType 255 = IndexKind.ui8 ∧
    subarrayIndexType 256 = IndexKind.ui8 ∧
    specSubarrayIndexType 256 = IndexKind.ui16 ∧
    subarrayIndexType 65536 = IndexKind.ui16 ∧
    specSubarrayIndexType 65536 = IndexKind.ui32 ∧
    indexTypeWrite (subarrayIndexType 256) 256 = 0 ∧
    (∀ n : Nat, n ≠ 256 → n ≠ 65536 → subarrayIndexType n = specSubarrayIndexType n) := by
  refine ⟨by decide, by decide, by decide, by decide, by decide, by decide, ?_⟩
  intro n h256 h65536
  have h8 : UNSIGNED_MAX_uint8 = 256 := rfl
  have h16 : UNSIGNED_MAX_uint16 = 65536 := rfl
  unfold subarrayIndexType specSubarrayIndexType
  rw [h8, h16]
  by_cases ha : n ≤ 255
  · rw [if_pos (by omega : n ≤ 256), if_pos ha]
  · by_cases hb : n ≤ 65535
    · rw [if_neg (by omega : ¬ n ≤ 256), if_pos (by omega : n ≤ 65536), if_neg ha,
        if_pos hb]
    · rw [if_neg (by omega : ¬ n ≤ 256), if_neg (by omega : ¬ n ≤ 65536), if_neg ha,
        if_neg hb]

/-- C2 (amended): after `commitRemovals`, an entity is a member of a
query's primary set iff its masks match the query's masks, for every
world reached by a sequence of public operations whose `addComponent`
calls pass validation.  (The unamended claim — any sequence — fails: an
`addComponent` whose validator rejects leaves the bitflag OR'd into the
mask without re-evaluating the queries; see the counterexample.) -/
theorem C2_membership_iff_masks {cfg : Config} (size : Nat) (ops : List Op)
    (qi e : Nat) (q : Query) (hcfg : WFConfig cfg)
    (hv : ∀ op ∈ ops, opValid cfg op)
    (hq : (commitRemovals (runOps cfg size ops)).queries[qi]? = some q) :
    q.primary.has e = true ↔
      queryCheckEntity cfg (commitRemovals (runOps cfg size ops)) qi e = true := by
  have hI := Inv_commitRemovals (Inv_runOps cfg hcfg size ops hv)
  have hdirty : (commitRemovals (runOps cfg size ops)).dirtyQueries = [] :=
    (commitRemovals_fields (runOps cfg size ops)).2.2.2.2.2.2.2.1
  have htr : q.toRemove.has e = false := by
    cases hh : q.toRemove.has e
    · rfl
    · have hmem := hI.toRemoveDirty qi q e hq hh
      rw [hdirty] at hmem
      exact absurd hmem (List.not_mem_nil qi)
  have hm := hI.main qi q e hq
  rw [htr] at hm
  simp only [Bool.not_false, Bool.and_true] at hm
  rw [hm]

/-- C2 counterexample: with a validator that rejects non-empty
overrides, the sequence `[newEntity, addComponent 0 0 [("x",1)]]`
followed by `commitRemovals` leaves entity 0 out of the query's primary
set although its masks match the query's masks: the failed validation
aborted `addComponent` after the mask write but before the query
re-evaluation. -/
theorem C2_counterexample :
    (((commitRemovals (runOps cfgV 10 [Op.newEntity, Op.addComp 0 0 [("x", 1)] none])).queries[0]?).map
        fun q => q.primary.has 0) = some false ∧
    queryCheckEntity cfgV
      (commitRemovals (runOps cfgV 10 [Op.newEntity, Op.addComp 0 0 [("x", 1)] none])) 0 0 =
      true := by
  constructor
  · decide
  · decide

theorem C2_membership_iff_masks_witness :
    ((((commitRemovals (runOps cfgA 10 [Op.newEntity, Op.addComp 0 0 [] none])).queries[0]?).getD
        initQuery).primary.has 0 = true ↔
      queryCheckEntity cfgA
        (commitRemovals (runOps cfgA 10 [Op.newEntity, Op.addComp 0 0 [] none])) 0 0 = true) :=
  C2_membership_iff_masks 10 [Op.newEntity, Op.addComp 0 0 [] none] 0 0 _ WFConfig_cfgA
    (by
      intro op hop
      cases hop with
      | head => trivial
      | tail _ h2 =>
        cases h2 with
        | head =>
          intro c hc
          cases hc
          rfl
        | tail _ h3 => cases h3)
    rfl

/-- C3 (amended): `toRemove ⊆ members` holds at every reachable point:
in any world reached by a valid operation sequence, an entity queued in
a query's `toRemove` set is still in that query's primary set.  (The
unamended claim also asserts `entered ⊆ members`, which fails after
`removeEntity` followed by a commit — see the counterexample: the
deferred removal drops the entity from the primary set but `entered`
keeps it.) -/
theorem C3_toRemove_subset_members {cfg : Config} (hcfg : WFConfig cfg)
    (size : Nat) (ops : List Op) (hv : ∀ op ∈ ops, opValid cfg op)
    (qi e : Nat) (q : Query) (hq : (runOps cfg size ops).queries[qi]? = some q)
    (ht : q.toRemove.has e = true) : q.primary.has e = true :=
  (Inv_runOps cfg hcfg size ops hv).toRemoveSub qi q e hq ht

/-- C3 counterexample: after adding entity 0 to the query, removing the
entity and committing the deferred removals, the query's `entered` set
still holds 0 while the primary member set does not: `entered` is not a
subset of the members. -/
theorem C3_counterexample :
    (((commitRemovals (runOps cfgA 10
        [Op.newEntity, Op.addComp 0 0 [] none, Op.delEntity 0])).queries[0]?).map
      fun q => (q.entered.has 0, q.primary.has 0)) = some (true, false) := by
  decide

theorem C3_toRemove_subset_members_witness :
    ((((runOps cfgA 10 [Op.newEntity, Op.addComp 0 0 [] none, Op.delEntity 0]).queries[0]?).getD
        initQuery).primary.has 0 = true) :=
  C3_toRemove_subset_members WFConfig_cfgA 10
    [Op.newEntity, Op.addComp 0 0 [] none, Op.delEntity 0]
    (by
      intro op hop
      cases hop with
      | head => trivial
      | tail _ h2 =>
        cases h2 with
        | head =>
          intro c hc
          cases hc
          rfl
        | tail _ h3 =>
          cases h3 with
          | head => trivial
          | tail _ h4 => cases h4)
    0 0 _ rfl (by decide)

/-- C4: `queryRemoveEntity` never shrinks a query's primary set — it
only queues the entity in `toRemove` and marks the query dirty,
returning true exactly when the entity was a member not already queued
and leaving the world untouched otherwise; and reading a query's
entities (`getEntities`) first commits every dirty query's deferred
removals — emptying `toRemove` and restricting the primary set to the
unqueued members — before returning the committed primary dense list. -/
theorem C4_deferred_removal (w : World) (hwf : WFQueries w) (qi e : Nat) :
    (∀ qj : Nat, (((queryRemoveEntity w qi e).1.queries[qj]?).map Query.primary) =
      ((w.queries[qj]?).map Query.primary)) ∧
    ((queryRemoveEntity w qi e).2 = true ↔
      ∃ q, w.queries[qi]? = some q ∧ q.primary.has e = true ∧ q.toRemove.has e = false) ∧
    ((queryRemoveEntity w qi e).2 = true →
      qi ∈ (queryRemoveEntity w qi e).1.dirtyQueries ∧
      ∃ q, w.queries[qi]? = some q ∧
        (queryRemoveEntity w qi e).1.queries[qi]? =
          some { q with toRemove := q.toRemove.add e }) ∧
    ((queryRemoveEntity w qi e).2 = false → (queryRemoveEntity w qi e).1 = w) ∧
    (∀ (qj : Nat) (q : Query), w.queries[qj]? = some q → qj ∈ w.dirtyQueries →
      ∃ q2, (getEntities w qi).1.queries[qj]? = some q2 ∧ q2.toRemove.dense = [] ∧
        ∀ x, q2.primary.has x = (q.primary.has x && !q.toRemove.has x)) ∧
    ((getEntities w qi).2 =
      (((getEntities w qi).1.queries[qi]?).map fun q => q.primary.dense).getD []) := by
  refine ⟨?_, ?_, ?_, ?_, ?_, rfl⟩
  · intro qj
    rcases queryRemoveEntity_cases w qi e with ⟨hn, hres⟩ | ⟨q, hq, hcase⟩
    · rw [hres]
    · rcases hcase with ⟨hcond, hres⟩ | ⟨hp, ht, hres⟩
      · rw [hres]
      · rw [hres]
        have hmq := (markDirty_spec
          { w with queries := w.queries.set qi { q with toRemove := q.toRemove.add e } }
          qi).2.2.2.2.2.2.2.1
        show ((World.markDirty _ qi).queries[qj]?).map Query.primary = _
        rw [hmq]
        have hlt : qi < w.queries.length := (List.getElem?_eq_some.1 hq).1
        by_cases hj : qj = qi
        · subst hj
          rw [List.getElem?_set_self hlt, hq]
          rfl
        · rw [List.getElem?_set_ne fun he => hj he.symm]
  · constructor
    · intro htrue
      rcases queryRemoveEntity_cases w qi e with ⟨hn, hres⟩ | ⟨q, hq, hcase⟩
      · rw [hres] at htrue
        simp at htrue
      · rcases hcase with ⟨hcond, hres⟩ | ⟨hp, ht, hres⟩
        · rw [hres] at htrue
          simp at htrue
        · exact ⟨q, hq, hp, ht⟩
    · rintro ⟨q0, hq0, hp0, ht0⟩
      rcases queryRemoveEntity_cases w qi e with ⟨hn, hres⟩ | ⟨q, hq, hcase⟩
      · rw [hn] at hq0
        cases hq0
      · have hqq : q = q0 := Option.some_inj.1 (hq.symm.trans hq0)
        subst hqq
        rcases hcase with ⟨hcond, hres⟩ | ⟨hp, ht, hres⟩
        · cases hcond with
          | inl hpf =>
            rw [hp0] at hpf
            cases hpf
          | inr htT =>
            rw [htT] at ht0
            cases ht0
        · rw [hres]
  · intro htrue
    rcases queryRemoveEntity_cases w qi e with ⟨hn, hres⟩ | ⟨q, hq, hcase⟩
    · rw [hres] at htrue
      simp at htrue
    · rcases hcase with ⟨hcond, hres⟩ | ⟨hp, ht, hres⟩
      · rw [hres] at htrue
        simp at htrue
      · rw [hres]
        have hmd := markDirty_spec
          { w with queries := w.queries.set qi { q with toRemove := q.toRemove.add e } } qi
        have hlt : qi < w.queries.length := (List.getElem?_eq_some.1 hq).1
        refine ⟨hmd.2.2.2.2.2.2.2.2.1, q, hq, ?_⟩
        show (World.markDirty _ qi).queries[qi]? = _
        rw [hmd.2.2.2.2.2.2.2.1]
        rw [List.getElem?_set_self hlt]
  · intro hfalse
    rcases queryRemoveEntity_cases w qi e with ⟨hn, hres⟩ | ⟨q, hq, hcase⟩
    · rw [hres]
    · rcases hcase with ⟨hcond, hres⟩ | ⟨hp, ht, hres⟩
      · rw [hres]
      · rw [hres] at hfalse
        simp at hfalse
  · intro qj q hqj hdirty
    have hcq := commitRemovals_queries w hwf qj
    rw [if_pos hdirty, hqj] at hcq
    simp only [Option.map_some'] at hcq
    obtain ⟨hp0, he0, ht0⟩ := hwf qj q hqj
    obtain ⟨hs1, hs2, hs3, hnil, hhas⟩ := queryCommitRemovals_spec q hp0 ht0
    exact ⟨queryCommitRemovals q, hcq, hnil, hhas⟩

/-- The world with one live entity holding the component, used as the
concrete input of several witnesses. -/
def wAdd : World := runOps cfgA 10 [Op.newEntity, Op.addComp 0 0 [] none]

theorem C4_deferred_removal_witness :
    (∀ qj : Nat, (((queryRemoveEntity wAdd 0 0).1.queries[qj]?).map Query.primary) =
      ((wAdd.queries[qj]?).map Query.primary)) ∧
    ((queryRemoveEntity wAdd 0 0).2 = true ↔
      ∃ q, wAdd.queries[0]? = some q ∧ q.primary.has 0 = true ∧ q.toRemove.has 0 = false) ∧
    ((queryRemoveEntity wAdd 0 0).2 = true →
      0 ∈ (queryRemoveEntity wAdd 0 0).1.dirtyQueries ∧
      ∃ q, wAdd.queries[0]? = some q ∧
        (queryRemoveEntity wAdd 0 0).1.queries[0]? =
          some { q with toRemove := q.toRemove.add 0 }) ∧
    ((queryRemoveEntity wAdd 0 0).2 = false → (queryRemoveEntity wAdd 0 0).1 = wAdd) ∧
    (∀ (qj : Nat) (q : Query), wAdd.queries[qj]? = some q → qj ∈ wAdd.dirtyQueries →
      ∃ q2, (getEntities wAdd 0).1.queries[qj]? = some q2 ∧ q2.toRemove.dense = [] ∧
        ∀ x, q2.primary.has x = (q.primary.has x && !q.toRemove.has x)) ∧
    ((getEntities wAdd 0).2 =
      (((getEntities wAdd 0).1.queries[0]?).map fun q => q.primary.dense).getD []) :=
  C4_deferred_removal wAdd
    (Inv_runOps cfgA WFConfig_cfgA 10 [Op.newEntity, Op.addComp 0 0 [] none]
      (by
        intro op hop
        cases hop with
        | head => trivial
        | tail _ h2 =>
          cases h2 with
          | head =>
            intro c hc
            cases hc
            rfl
          | tail _ h3 => cases h3)).wfQ
    0 0

/-- C5: `addEntity` recycles an id — the most recently removed one,
popping the removed queue — exactly when the removed queue is longer
than the reuse threshold (the model of `Math.round(size * 0.01)`), and
otherwise takes the entity cursor and increments it; it reports
`CapacityExceeded` exactly when the chosen id exceeds `size` (the pop or
increment having already happened), and on success the id is added to
the entity sparse set. -/
theorem C5_addEntity_spec (w : World) :
    ((w.removed.length > removedReuseThresholdOf w.size →
        (addEntity w).2.1 = (w.removed.getLast?).getD 0 ∧
        (addEntity w).1.removed = w.removed.dropLast ∧
        (addEntity w).1.entityCursor = w.entityCursor) ∧
     (¬ w.removed.length > removedReuseThresholdOf w.size →
        (addEntity w).2.1 = w.entityCursor ∧
        (addEntity w).1.removed = w.removed ∧
        (addEntity w).1.entityCursor = w.entityCursor + 1)) ∧
    ((addEntity w).2.2 = some Err.capacityExceeded ↔ (addEntity w).2.1 > w.size) ∧
    ((addEntity w).2.2 = none ↔ (addEntity w).2.1 ≤ w.size) ∧
    ((addEntity w).2.2 = none →
      (addEntity w).1.entitySparseSet.has (addEntity w).2.1 = true) := by
  unfold addEntity
  by_cases h1 : w.removed.length > removedReuseThresholdOf w.size
  · rw [if_pos h1]
    by_cases h2 : (w.removed.getLast?).getD 0 > w.size
    · rw [if_pos h2]
      refine ⟨⟨fun _ => ⟨rfl, rfl, rfl⟩, fun h => absurd h1 h⟩, ?_, ?_, ?_⟩
      · exact ⟨fun _ => h2, fun _ => rfl⟩
      · exact ⟨fun h => Option.noConfusion h, fun h => absurd h2 (Nat.not_lt.2 h)⟩
      · exact fun h => Option.noConfusion h
    · rw [if_neg h2]
      refine ⟨⟨fun _ => ⟨rfl, rfl, rfl⟩, fun h => absurd h1 h⟩, ?_, ?_, ?_⟩
      · exact ⟨fun h => Option.noConfusion h, fun hgt => absurd hgt h2⟩
      · exact ⟨fun _ => Nat.not_lt.1 h2, fun _ => rfl⟩
      · intro h0
        rw [SparseSet.has_add]
        simp
  · rw [if_neg h1]
    by_cases h2 : w.entityCursor > w.size
    · rw [if_pos h2]
      refine ⟨⟨fun h => absurd h h1, fun _ => ⟨rfl, rfl, rfl⟩⟩, ?_, ?_, ?_⟩
      · exact ⟨fun _ => h2, fun _ => rfl⟩
      · exact ⟨fun h => Option.noConfusion h, fun h => absurd h2 (Nat.not_lt.2 h)⟩
      · exact fun h => Option.noConfusion h
    · rw [if_neg h2]
      refine ⟨⟨fun h => absurd h h1, fun _ => ⟨rfl, rfl, rfl⟩⟩, ?_, ?_, ?_⟩
      · exact ⟨fun h => Option.noConfusion h, fun hgt => absurd hgt h2⟩
      · exact ⟨fun _ => Nat.not_lt.1 h2, fun _ => rfl⟩
      · intro h0
        rw [SparseSet.has_add]
        simp

/-- C7: removing an existing entity makes `entityExists` false and
clears every registered component: each generation's mask row for the
entity is zeroed, so every `hasComponent` test fails. -/
theorem C7_removeEntity_clears {cfg : Config} (hcfg : WFConfig cfg) {w : World}
    (hwfEnt : w.entitySparseSet.WF) (e : Nat) (hex : entityExists w e = true) :
    entityExists (removeEntity cfg w e).1 e = false ∧
    (∀ g, g < cfg.genCount → (removeEntity cfg w e).1.entityMasks g e = 0) ∧
    ∀ ci, hasComponent cfg (removeEntity cfg w e).1 ci e = false := by
  obtain ⟨l1, l2, l3, l4, l5, l6, l7, l8, l9, l10⟩ :=
    removeLoop_spec e (List.range w.queries.length) w []
  have hex2 : w.entitySparseSet.has e = true := hex
  have hre : (removeEntity cfg w e).1 =
      { removeLoopOut e (List.range w.queries.length) w [] with
        removed := (removeLoopOut e (List.range w.queries.length) w []).removed ++ [e]
        entitySparseSet :=
          (removeLoopOut e (List.range w.queries.length) w []).entitySparseSet.remove e
        entityMasks := fun g x =>
          (if g < cfg.genCount ∧ x = e then 0
           else (removeLoopOut e (List.range w.queries.length) w []).entityMasks g x) } := by
    unfold removeEntity removeLoopOut removeStep
    simp only [hex2, Bool.not_true, Bool.false_eq_true, if_false]
  rw [hre]
  have hmask : ∀ g, g < cfg.genCount →
      (if g < cfg.genCount ∧ e = e then 0
       else (removeLoopOut e (List.range w.queries.length) w []).entityMasks g e) = 0 := by
    intro g hg
    rw [if_pos ⟨hg, rfl⟩]
  refine ⟨?_, hmask, ?_⟩
  · show ((removeLoopOut e (List.range w.queries.length) w []).entitySparseSet.remove e).has e
      = false
    rw [l5, SparseSet.has_remove hwfEnt]
    simp
  · intro ci
    unfold hasComponent
    cases hc : cfg.comps[ci]? with
    | none => rfl
    | some c =>
      have hg : c.gen < cfg.genCount := hcfg.gen_lt c (mem_of_some_getElem hc)
      show ((if c.gen < cfg.genCount ∧ e = e then 0
        else (removeLoopOut e (List.range w.queries.length) w []).entityMasks c.gen e) &&&
          c.bitflag == c.bitflag) = false
      rw [if_pos ⟨hg, rfl⟩, Nat.zero_and]
      obtain ⟨k, hk, hbk⟩ := hcfg.flag_pow c (mem_of_some_getElem hc)
      have hne : c.bitflag ≠ 0 := by
        rw [hbk]
        exact (Nat.two_pow_pos k).ne'
      exact beq_eq_false_iff_ne.2 fun h => hne h.symm

theorem C7_removeEntity_clears_witness :
    entityExists (removeEntity cfgA wAdd 0).1 0 = false ∧
    (∀ g, g < cfgA.genCount → (removeEntity cfgA wAdd 0).1.entityMasks g 0 = 0) ∧
    ∀ ci, hasComponent cfgA (removeEntity cfgA wAdd 0).1 ci 0 = false :=
  C7_removeEntity_clears WFConfig_cfgA
    (Inv_runOps cfgA WFConfig_cfgA 10 [Op.newEntity, Op.addComp 0 0 [] none]
      (by
        intro op hop
        cases hop with
        | head => trivial
        | tail _ h2 =>
          cases h2 with
          | head =>
            intro c hc
            cases hc
            rfl
          | tail _ h3 => cases h3)).wfEnt
    0 (by decide)

/-- C8: when the entity already has the component, `addComponent` is a
no-op: it returns the world unchanged — masks, stores and every query's
sets untouched — with no init or cleanup events and no error. -/
theorem C8_addComponent_idempotent (cfg : Config) (w : World) (ci e : Nat)
    (ov : List (String × Int)) (rst : Option Bool)
    (hex : w.entitySparseSet.has e = true)
    (hhas : hasComponent cfg w ci e = true) :
    addComponent cfg w ci e ov rst = (w, [], none) := by
  cases hc : cfg.comps[ci]? with
  | none =>
    unfold hasComponent at hhas
    rw [hc] at hhas
    cases hhas
  | some c =>
    unfold addComponent
    simp [hex, hc, hhas]

theorem C8_addComponent_idempotent_witness :
    addComponent cfgA wAdd 0 0 [] none = (wAdd, [], none) :=
  C8_addComponent_idempotent cfgA wAdd 0 0 [] none (by decide) (by decide)

/-- C9: when the validator rejects the overrides, `addComponent` throws
`ValidationError` with the world already mutated: the component's
bitflag has been OR'd into the entity's mask (so `hasComponent` now
reports true), the entity's row of the component's store has been zeroed
unless `reset = some false`, no override value has been written, and the
queries, dirty set, entity set and removed queue are untouched. -/
theorem C9_validation_partial_mutation (cfg : Config) (w : World) (ci e : Nat)
    (ov : List (String × Int)) (rst : Option Bool) (c : Comp)
    (hex : w.entitySparseSet.has e = true)
    (hc : cfg.comps[ci]? = some c)
    (hhas : hasComponent cfg w ci e = false)
    (hval : c.validate ov = false) :
    (addComponent cfg w ci e ov rst).2.2 = some Err.validation ∧
    (addComponent cfg w ci e ov rst).2.1 = [] ∧
    hasComponent cfg (addComponent cfg w ci e ov rst).1 ci e = true ∧
    ((addComponent cfg w ci e ov rst).1.entityMasks = fun g x =>
      (if g = c.gen ∧ x = e then w.entityMasks c.gen e ||| c.bitflag
       else w.entityMasks g x)) ∧
    (rst ≠ some false → (addComponent cfg w ci e ov rst).1.stores = fun cj x k =>
      (if cj = ci ∧ x = e then 0 else w.stores cj x k)) ∧
    (rst = some false → (addComponent cfg w ci e ov rst).1.stores = w.stores) ∧
    (addComponent cfg w ci e ov rst).1.queries = w.queries ∧
    (addComponent cfg w ci e ov rst).1.dirtyQueries = w.dirtyQueries ∧
    (addComponent cfg w ci e ov rst).1.entitySparseSet = w.entitySparseSet ∧
    (addComponent cfg w ci e ov rst).1.removed = w.removed := by
  have hres : addComponent cfg w ci e ov rst =
      ({ w with
          entityMasks := fun g x =>
            (if g = c.gen ∧ x = e then w.entityMasks c.gen e ||| c.bitflag
             else w.entityMasks g x)
          stores :=
            (if rst = some false then w.stores
             else fun cj x k => (if cj = ci ∧ x = e then 0 else w.stores cj x k)) },
        [], some Err.validation) := by
    unfold addComponent
    by_cases hr : rst = some false <;> simp [hex, hc, hhas, hval, hr]
  rw [hres]
  refine ⟨rfl, rfl, ?_, rfl, ?_, ?_, rfl, rfl, rfl, rfl⟩
  · unfold hasComponent
    rw [hc]
    show ((if c.gen = c.gen ∧ e = e then w.entityMasks c.gen e ||| c.bitflag
      else w.entityMasks c.gen e) &&& c.bitflag == c.bitflag) = true
    rw [if_pos ⟨rfl, rfl⟩, or_land_self]
    simp
  · intro hr
    show (if rst = some false then w.stores
      else fun cj x k => (if cj = ci ∧ x = e then 0 else w.stores cj x k)) = _
    rw [if_neg hr]
  · intro hr
    show (if rst = some false then w.stores
      else fun cj x k => (if cj = ci ∧ x = e then 0 else w.stores cj x k)) = w.stores
    rw [if_pos hr]

/-- The world with one live entity and the rejecting-validator
component not yet attached. -/
def wV : World := runOps cfgV 10 [Op.newEntity]

theorem C9_validation_partial_mutation_witness :
    (addComponent cfgV wV 0 0 [("x", 1)] none).2.2 = some Err.validation ∧
    (addComponent cfgV wV 0 0 [("x", 1)] none).2.1 = [] ∧
    hasComponent cfgV (addComponent cfgV wV 0 0 [("x", 1)] none).1 0 0 = true ∧
    ((addComponent cfgV wV 0 0 [("x", 1)] none).1.entityMasks = fun g x =>
      (if g = cV.gen ∧ x = 0 then wV.entityMasks cV.gen 0 ||| cV.bitflag
       else wV.entityMasks g x)) ∧
    ((none : Option Bool) ≠ some false →
      (addComponent cfgV wV 0 0 [("x", 1)] none).1.stores = fun cj x k =>
        (if cj = 0 ∧ x = 0 then 0 else wV.stores cj x k)) ∧
    ((none : Option Bool) = some false →
      (addComponent cfgV wV 0 0 [("x", 1)] none).1.stores = wV.stores) ∧
    (addComponent cfgV wV 0 0 [("x", 1)] none).1.queries = wV.queries ∧
    (addComponent cfgV wV 0 0 [("x", 1)] none).1.dirtyQueries = wV.dirtyQueries ∧
    (addComponent cfgV wV 0 0 [("x", 1)] none).1.entitySparseSet = wV.entitySparseSet ∧
    (addComponent cfgV wV 0 0 [("x", 1)] none).1.removed = wV.removed :=
  C9_validation_partial_mutation cfgV wV 0 0 [("x", 1)] none cV (by decide) rfl
    (by decide) rfl

/-- A system without a `run` hook still commits the deferred removals:
its step is exactly `commitRemovals` (via the query read). -/
theorem stepSystem_run_none {w : World} {s : SystemImpl} (h : s.run = none) :
    stepSystem w s = commitRemovals w := by
  by_cases hl : (getEntities w s.qi).2.length ≠ 0
  · unfold stepSystem
    rw [if_pos hl]
    unfold runAllEntities
    rw [h]
    rfl
  · unfold stepSystem
    rw [if_neg hl]
    rfl

/-- Stepping a list of hook-free systems preserves every world field
other than the query states and the dirty set. -/
theorem stepLoop_fields {ss : List SystemImpl} :
    ∀ w : World, (∀ s ∈ ss, s.run = none) →
      (ss.foldl stepSystem w).frame = w.frame ∧
      (ss.foldl stepSystem w).removed = w.removed ∧
      (ss.foldl stepSystem w).entitySparseSet = w.entitySparseSet ∧
      (ss.foldl stepSystem w).entityMasks = w.entityMasks ∧
      (ss.foldl stepSystem w).stores = w.stores ∧
      (ss.foldl stepSystem w).entityCursor = w.entityCursor ∧
      (ss.foldl stepSystem w).size = w.size := by
  induction ss with
  | nil =>
    intro w _
    exact ⟨rfl, rfl, rfl, rfl, rfl, rfl, rfl⟩
  | cons s ss ih =>
    intro w hrun
    have hs : stepSystem w s = commitRemovals w :=
      stepSystem_run_none (hrun s (List.mem_cons_self s ss))
    obtain ⟨c1, c2, c3, c4, c5, c6, c7, c8, c9⟩ := commitRemovals_fields w
    obtain ⟨f1, f2, f3, f4, f5, f6, f7⟩ :=
      ih (stepSystem w s) (fun x hx => hrun x (List.mem_cons_of_mem s hx))
    exact ⟨by rw [List.foldl_cons] at *; rw [f1, hs]; exact c3,
      by rw [List.foldl_cons] at *; rw [f2, hs]; exact c4,
      by rw [List.foldl_cons] at *; rw [f3, hs]; exact c5,
      by rw [List.foldl_cons] at *; rw [f4, hs]; exact c6,
      by rw [List.foldl_cons] at *; rw [f5, hs]; exact c7,
      by rw [List.foldl_cons] at *; rw [f6, hs]; exact c1,
      by rw [List.foldl_cons] at *; rw [f7, hs]; exact c2⟩

/-- C10 (amended): only `stepWorld` increments the frame counter, and
when the registered systems carry no `run` hooks a step leaves the
removed queue, entity sparse set, entity masks and stores unchanged.
(The unamended claim — that `stepWorldDraw` mutates nothing beyond what
the draw systems' run hooks do — fails: reading each system's query
commits the deferred removals, mutating the query states even when
every hook is absent; see the counterexample.) -/
theorem C10_frame_effects {cfg : Config} (w : World)
    (hsys : ∀ s ∈ cfg.systems, s.run = none)
    (hdraw : ∀ s ∈ cfg.drawSystems, s.run = none) :
    (stepWorld cfg w).frame = w.frame + 1 ∧
    (stepWorldDraw cfg w).frame = w.frame ∧
    (stepWorldDraw cfg w).removed = w.removed ∧
    (stepWorldDraw cfg w).entitySparseSet = w.entitySparseSet ∧
    (stepWorldDraw cfg w).entityMasks = w.entityMasks ∧
    (stepWorldDraw cfg w).stores = w.stores ∧
    (stepWorld cfg w).removed = w.removed ∧
    (stepWorld cfg w).entitySparseSet = w.entitySparseSet ∧
    (stepWorld cfg w).entityMasks = w.entityMasks ∧
    (stepWorld cfg w).stores = w.stores := by
  obtain ⟨d1, d2, d3, d4, d5, d6, d7⟩ := stepLoop_fields w hdraw
  obtain ⟨s1, s2, s3, s4, s5, s6, s7⟩ :=
    stepLoop_fields { w with frame := w.frame + 1 } hsys
  exact ⟨s1, d1, d2, d3, d4, d5, s2, s3, s4, s5⟩

/-- The one-entity world (under `cfgD`) whose entity has been removed
but not yet committed: the query still lists it as a member. -/
def wD : World := runOps cfgD 10 [Op.newEntity, Op.addComp 0 0 [] none, Op.delEntity 0]

/-- C10 counterexample: a draw system with no `run` hook still mutates
the world: `stepWorldDraw` reads its query, which commits the pending
removal — entity 0 is a primary member before the draw step and gone
after it, although no hook ran.  The frame counter is indeed
untouched. -/
theorem C10_counterexample :
    ((wD.queries[0]?).map fun q => q.primary.has 0) = some true ∧
    (((stepWorldDraw cfgD wD).queries[0]?).map fun q => q.primary.has 0) = some false ∧
    (stepWorldDraw cfgD wD).frame = wD.frame := by
  refine ⟨by decide, by decide, by decide⟩

theorem C10_frame_effects_witness :
    (stepWorld cfgD wD).frame = wD.frame + 1 ∧
    (stepWorldDraw cfgD wD).frame = wD.frame ∧
    (stepWorldDraw cfgD wD).removed = wD.removed ∧
    (stepWorldDraw cfgD wD).entitySparseSet = wD.entitySparseSet ∧
    (stepWorldDraw cfgD wD).entityMasks = wD.entityMasks ∧
    (stepWorldDraw cfgD wD).stores = wD.stores ∧
    (stepWorld cfgD wD).removed = wD.removed ∧
    (stepWorld cfgD wD).entitySparseSet = wD.entitySparseSet ∧
    (stepWorld cfgD wD).entityMasks = wD.entityMasks ∧
    (stepWorld cfgD wD).stores = wD.stores :=
  C10_frame_effects wD
    (by
      intro s hs
      cases hs with
      | head => rfl
      | tail _ h2 => cases h2)
    (by
      intro s hs
      cases hs with
      | head => rfl
      | tail _ h2 => cases h2)
